import Mathlib

/-!
Shallow embedding of the burst signal-propagation engine (sprucely/burst).

The data model follows `src/component.rs`: cells with FIRED/STAGED flags and a
32-bit `signals` set, connector nodes, and a directed graph of `Signal`,
`Association` and `Connection` edges.  The per-instance stepping algorithm
follows `src/component_instance.rs` (the three phases `propagate_fired_signals`,
`stage_signaled_and_associated_nodes`, `process_active_nodes`).  The orchestrator
global cycle follows `src/orchestrator.rs` (`ExecutionContext`,
`Orchestrator::step`, `Orchestrator::run`).

Machine integers are modelled as `Nat` (with explicit bounds where overflow
matters: `signals` is a `u32`, so a shift by 32 or more is modelled as a fatal
error).  Rust panics (`unimplemented!()`, shift overflow, unwraps of missing
instances) are modelled by `Option`: `none` means the step aborts.  Petgraph's
node/edge arenas become index-stable lists; node weights are mutated by
`List.set`, edge lists are never modified by the engine.  Petgraph iterates a
node's outgoing edges most-recently-added first; this embedding iterates them in
insertion order — no embedded claim depends on the relative order of one node's
outgoing edges.
-/

namespace Burst

/-- The FIRED / STAGED flag bits of `CellFlags` in component.rs. -/
structure CellFlags where
  fired : Bool
  staged : Bool
deriving DecidableEq, Repr

/-- Flags with neither bit set (`CellFlags::empty()`). -/
def CellFlags.empty : CellFlags := { fired := false, staged := false }

/-- The closed cell-kind enum from component.rs. -/
inductive CellType where
  | Relay : CellType
  | OneShot : CellType
deriving DecidableEq, Repr

/-- A cell node: kind, flag set and 32-bit pending-signal set (component.rs). -/
structure Cell where
  cell_type : CellType
  flags : CellFlags
  signals : Nat
deriving DecidableEq, Repr

/-- `Cell::relay()` from component.rs. -/
def Cell.relay : Cell := { cell_type := CellType.Relay, flags := CellFlags.empty, signals := 0 }

/-- `Cell::one_shot()` from component.rs. -/
def Cell.one_shot : Cell := { cell_type := CellType.OneShot, flags := CellFlags.empty, signals := 0 }

/-- `Cell::set_signal`: `self.signals |= 1 << signal_bit` on a `u32`.
A shift by 32 or more overflows the `u32` shift in Rust (a panic in debug
builds); that case is modelled as `none`. -/
def Cell.set_signal (c : Cell) (signal_bit : Nat) : Option Cell :=
  if signal_bit < 32 then some { c with signals := c.signals ||| (1 <<< signal_bit) } else none

/-- `Cell::clear_signal`: `self.signals &= !(1 << signal_bit)` on a `u32`.
The `u32` complement of `1 << signal_bit` is `(2^32 - 1) ^^^ (1 <<< signal_bit)`. -/
def Cell.clear_signal (c : Cell) (signal_bit : Nat) : Option Cell :=
  if signal_bit < 32 then
    some { c with signals := c.signals &&& ((2 ^ 32 - 1) ^^^ (1 <<< signal_bit)) }
  else none

/-- `Cell::get_signal`: `self.signals & (1 << signal_bit) != 0`. -/
def Cell.get_signal (c : Cell) (signal_bit : Nat) : Option Bool :=
  if signal_bit < 32 then some (c.signals &&& (1 <<< signal_bit) != 0) else none

/-- Destination of a resolved `ConnectorOut`: instance-graph node index and
connector node index in the destination instance (orchestrator.rs
`InstanceConnectorIx`). -/
structure InstanceConnectorIx where
  instance_ix : Nat
  connector_ix : Nat
deriving DecidableEq, Repr

/-- Graph node weights (the `Node` enum from component.rs).  `ConnectorIn`
carries its name and flags; `ConnectorOut` carries its lazily resolved
destination (`to_instance_connector`, `None` until the orchestrator wires it);
the `Component` reference node's payload (names, cached instance-graph index)
plays no role in any embedded operation and is omitted. -/
inductive Node where
  | Cell : Cell → Node
  | ConnectorIn : String → CellFlags → Node
  | ConnectorOut : Option InstanceConnectorIx → Node
  | Component : Node
deriving DecidableEq, Repr

/-- Edge weights (the `Edge` enum from component.rs). -/
inductive Edge where
  | Signal : Nat → Edge
  | Association : Edge
  | Connection : String → Edge
deriving DecidableEq, Repr

/-- A directed edge of the component graph: source index, target index, weight. -/
structure BEdge where
  src : Nat
  tgt : Nat
  weight : Edge
deriving DecidableEq, Repr

/-- The component graph: an index-stable arena of node weights plus a list of
directed edges (petgraph's `Graph<Node, Edge>`). -/
structure ComponentGraph where
  nodes : List Node
  edges : List BEdge
deriving DecidableEq, Repr

/-- Outgoing edges of node `ix` (`neighbors_directed(ix, Outgoing)`), in
insertion order. -/
def ComponentGraph.outgoing (g : ComponentGraph) (ix : Nat) : List BEdge :=
  g.edges.filter (fun e => e.src == ix)

/-- C10: for `signal_bit < 32`, `Cell::set_signal` sets exactly bit
`signal_bit` of `signals`, leaves every other bit, the flags and the cell type
unchanged, `get_signal` returns true afterwards and `clear_signal` restores the
bit to 0; for `signal_bit ≥ 32` the `u32` shift overflows and the operation is
not well-defined (modelled as `none`). -/
theorem c10_set_signal_frame (c : Cell) (signal_bit : Nat) (c' : Cell) :
    (signal_bit < 32 → c.set_signal signal_bit = some c' →
      c'.flags = c.flags ∧ c'.cell_type = c.cell_type ∧
      c'.signals.testBit signal_bit = true ∧
      (∀ i, i ≠ signal_bit → c'.signals.testBit i = c.signals.testBit i) ∧
      c'.get_signal signal_bit = some true ∧
      (∀ c'', c'.clear_signal signal_bit = some c'' →
        c''.signals.testBit signal_bit = false ∧
        ∀ i, i ≠ signal_bit → i < 32 → c''.signals.testBit i = c'.signals.testBit i)) ∧
    (32 ≤ signal_bit → c.set_signal signal_bit = none) := by
  constructor
  · intro hlt hset
    rw [Cell.set_signal, if_pos hlt] at hset
    obtain rfl : c' = { c with signals := c.signals ||| (1 <<< signal_bit) } :=
      (Option.some.injEq _ _ ▸ hset).symm
    refine ⟨rfl, rfl, ?_, ?_, ?_, ?_⟩
    · simp [Nat.testBit_or, Nat.shiftLeft_eq, Nat.testBit_two_pow_self]
    · intro i hi
      simp only [Nat.testBit_or, Nat.shiftLeft_eq, one_mul]
      rw [Nat.testBit_two_pow_of_ne (fun h => hi h.symm)]
      simp
    · rw [Cell.get_signal, if_pos hlt]
      have hbit : (c.signals ||| 1 <<< signal_bit).testBit signal_bit = true := by
        simp [Nat.testBit_or, Nat.shiftLeft_eq, Nat.testBit_two_pow_self]
      have hne : (c.signals ||| 1 <<< signal_bit) &&& (1 <<< signal_bit) ≠ 0 := by
        intro h0
        have := Nat.testBit_and (c.signals ||| 1 <<< signal_bit) (1 <<< signal_bit) signal_bit
        rw [h0] at this
        simp [Nat.shiftLeft_eq, Nat.testBit_two_pow_self, hbit] at this
      simp [hne]
    · intro c'' hclear
      rw [Cell.clear_signal, if_pos hlt] at hclear
      obtain rfl : c'' = _ := (Option.some.injEq _ _ ▸ hclear).symm
      constructor
      · have h1 : (2 ^ 32 - 1 : Nat).testBit signal_bit = true := by
          rw [Nat.testBit_two_pow_sub_one]
          simp [hlt]
        have h2 : (1 <<< signal_bit : Nat).testBit signal_bit = true := by
          simp [Nat.shiftLeft_eq, Nat.testBit_two_pow_self]
        rw [Nat.testBit_and, Nat.testBit_xor, h1, h2]
        simp
      · intro i hi h32
        have h1 : (2 ^ 32 - 1 : Nat).testBit i = true := by
          rw [Nat.testBit_two_pow_sub_one]
          simp [h32]
        have h2 : (1 <<< signal_bit : Nat).testBit i = false := by
          simp only [Nat.shiftLeft_eq, one_mul]
          exact Nat.testBit_two_pow_of_ne (fun h => hi h.symm)
        rw [Nat.testBit_and, Nat.testBit_xor, h1, h2]
        simp
  · intro hge
    rw [Cell.set_signal, if_neg (by omega)]

/-- Witness for `c10_set_signal_frame` at `Cell.relay` and bit 3. -/
theorem c10_set_signal_frame_witness :
    (3 : Nat) < 32 ∧
    ((Cell.relay.set_signal 3 = some { Cell.relay with signals := 8 }) ∧
      ({ Cell.relay with signals := 8 } : Cell).signals.testBit 3 = true) := by
  refine ⟨by decide, by decide, ?_⟩
  have h := c10_set_signal_frame Cell.relay 3 { Cell.relay with signals := 8 }
  exact (h.1 (by decide) (by decide)).2.2.1

/-! ## ComponentInstance stepping (component_instance.rs) -/

/-- Inner loop of `propagate_fired_signals`: walk one fired node's outgoing
edges; for each `Signal` edge whose target is a `Cell`, OR the edge's bit into
the target's `signals`.  Targets of other kinds are silently skipped (the
source's `if let Node::Cell` with the comment "no other node types should have
signals").  A dangling target index — impossible for edges produced by the
graph itself — is treated as fatal. -/
def propagateEdges (g : ComponentGraph) : List BEdge → Option ComponentGraph
  | [] => some g
  | e :: rest =>
    match e.weight with
    | Edge.Signal signal_bit =>
      match g.nodes.get? e.tgt with
      | some (Node.Cell c) =>
        match c.set_signal signal_bit with
        | some c' => propagateEdges { g with nodes := g.nodes.set e.tgt (Node.Cell c') } rest
        | none => none
      | some _ => propagateEdges g rest
      | none => none
    | _ => propagateEdges g rest

/-- `ComponentInstance::propagate_fired_signals`: for every fired node, walk its
outgoing `Signal` edges and set the carried bit on each target cell. -/
def propagate_fired_signals (g : ComponentGraph) : List Nat → Option ComponentGraph
  | [] => some g
  | ix :: rest =>
    match propagateEdges g (g.outgoing ix) with
    | some g' => propagate_fired_signals g' rest
    | none => none

/-- First pass of `stage_signaled_and_associated_nodes` for one fired node: walk
its outgoing `Signal` edges; stage unstaged target cells (push and set STAGED),
forward `ConnectorOut` targets to the execution context (collected in `em` as
the connector's node index), and abort (`unimplemented!()`) on any other target
kind. -/
def stageSignalEdges (g : ComponentGraph) (staged em : List Nat) :
    List BEdge → Option (ComponentGraph × List Nat × List Nat)
  | [] => some (g, staged, em)
  | e :: rest =>
    match e.weight with
    | Edge.Signal _ =>
      match g.nodes.get? e.tgt with
      | some (Node.Cell c) =>
        if c.flags.staged then stageSignalEdges g staged em rest
        else
          stageSignalEdges
            { g with nodes := g.nodes.set e.tgt (Node.Cell { c with flags := { c.flags with staged := true } }) }
            (staged ++ [e.tgt]) em rest
      | some (Node.ConnectorOut _) => stageSignalEdges g staged (em ++ [e.tgt]) rest
      | _ => none
    | _ => stageSignalEdges g staged em rest

/-- Second pass of `stage_signaled_and_associated_nodes` for one fired cell:
walk its outgoing `Association` edges and stage each unstaged target cell.
Non-cell targets are silently skipped (the source's `if let Node::Cell`). -/
def stageAssocEdges (g : ComponentGraph) (staged : List Nat) :
    List BEdge → ComponentGraph × List Nat
  | [] => (g, staged)
  | e :: rest =>
    match e.weight with
    | Edge.Association =>
      match g.nodes.get? e.tgt with
      | some (Node.Cell c) =>
        if c.flags.staged then stageAssocEdges g staged rest
        else
          stageAssocEdges
            { g with nodes := g.nodes.set e.tgt (Node.Cell { c with flags := { c.flags with staged := true } }) }
            (staged ++ [e.tgt]) rest
      | _ => stageAssocEdges g staged rest
    | _ => stageAssocEdges g staged rest

/-- Processing of one fired node inside `stage_signaled_and_associated_nodes`:
signal-edge staging, then — if the node is a cell — association-edge staging,
then clearing the node's FIRED flag (aborting, `unimplemented!()`, if the fired
node is neither a `Cell` nor a `ConnectorIn`). -/
def stageNode (g : ComponentGraph) (staged em : List Nat) (ix : Nat) :
    Option (ComponentGraph × List Nat × List Nat) :=
  match stageSignalEdges g staged em (g.outgoing ix) with
  | none => none
  | some (g1, staged1, em1) =>
    let p :=
      match g1.nodes.get? ix with
      | some (Node.Cell _) => stageAssocEdges g1 staged1 (g1.outgoing ix)
      | _ => (g1, staged1)
    match p.1.nodes.get? ix with
    | some (Node.Cell c) =>
      some ({ p.1 with nodes := p.1.nodes.set ix (Node.Cell { c with flags := { c.flags with fired := false } }) }, p.2, em1)
    | some (Node.ConnectorIn name cf) =>
      some ({ p.1 with nodes := p.1.nodes.set ix (Node.ConnectorIn name { cf with fired := false }) }, p.2, em1)
    | _ => none

/-- `ComponentInstance::stage_signaled_and_associated_nodes`: process every
fired node in order (signal staging, then that node's association staging, then
clear its FIRED flag).  The caller clears the fired list afterwards. -/
def stage_signaled_and_associated_nodes (g : ComponentGraph) (staged em : List Nat) :
    List Nat → Option (ComponentGraph × List Nat × List Nat)
  | [] => some (g, staged, em)
  | ix :: rest =>
    match stageNode g staged em ix with
    | some (g', staged', em') => stage_signaled_and_associated_nodes g' staged' em' rest
    | none => none

/-- `ComponentInstance::process_active_nodes`: for every active node, a cell
(`Relay` and `OneShot` behave identically) gets FIRED set, is pushed to the
fired list if FIRED ended up set, and has its `signals` reset to 0; a
`ConnectorIn` gets FIRED set and is pushed; any other node kind aborts
(`unimplemented!("No other node types should be active")`). -/
def process_active_nodes (g : ComponentGraph) (fired : List Nat) :
    List Nat → Option (ComponentGraph × List Nat)
  | [] => some (g, fired)
  | ix :: rest =>
    match g.nodes.get? ix with
    | some (Node.Cell c) =>
      let c1 :=
        match c.cell_type with
        | CellType.Relay => { c with flags := { c.flags with fired := true } }
        | CellType.OneShot => { c with flags := { c.flags with fired := true } }
      let fired' := if c1.flags.fired then fired ++ [ix] else fired
      process_active_nodes
        { g with nodes := g.nodes.set ix (Node.Cell { c1 with signals := 0 }) } fired' rest
    | some (Node.ConnectorIn name cf) =>
      process_active_nodes
        { g with nodes := g.nodes.set ix (Node.ConnectorIn name { cf with fired := true }) }
        (fired ++ [ix]) rest
    | _ => none

/-- The state of a `ComponentInstance` (component_instance.rs): a private graph
copy, the fired/active/staged node-index lists and the instance cycle counter. -/
structure ComponentInstance where
  graph : ComponentGraph
  fired_nodes : List Nat
  active_nodes : List Nat
  staged_nodes : List Nat
  instance_cycle : Nat
deriving DecidableEq, Repr

/-- `ComponentInstance::new`: fresh instance with the staged list seeded from
`init_cells`. -/
def ComponentInstance.new (g : ComponentGraph) (init_cells : List Nat) : ComponentInstance :=
  { graph := g, fired_nodes := [], active_nodes := [], staged_nodes := init_cells,
    instance_cycle := 0 }

/-- `ComponentInstance::is_active`: `staged_nodes.len() > 0 || fired_nodes.len() > 0`. -/
def ComponentInstance.is_active (s : ComponentInstance) : Bool :=
  decide (0 < s.staged_nodes.length) || decide (0 < s.fired_nodes.length)

/-- `ComponentInstance::step`: propagate fired signals, stage signaled and
associated nodes (clearing the fired list), and — when anything was staged —
swap staged into active and process it; then increment the cycle counter and
return `fired_nodes.len() > 0`.  Besides the new state, the emitted
ConnectorOut events of this step are returned (the source forwards them
one-by-one through `execution_context.signal_connector`). -/
def ComponentInstance.step (s : ComponentInstance) :
    Option (ComponentInstance × List Nat × Bool) :=
  match propagate_fired_signals s.graph s.fired_nodes with
  | none => none
  | some g1 =>
    match stage_signaled_and_associated_nodes g1 s.staged_nodes [] s.fired_nodes with
    | none => none
    | some (g2, staged2, em) =>
      if 0 < staged2.length then
        match process_active_nodes g2 [] staged2 with
        | none => none
        | some (g3, fired3) =>
          some ({ graph := g3, fired_nodes := fired3, active_nodes := staged2,
                  staged_nodes := [], instance_cycle := s.instance_cycle + 1 }, em,
                decide (0 < fired3.length))
      else
        some ({ graph := g2, fired_nodes := [], active_nodes := s.active_nodes,
                staged_nodes := staged2, instance_cycle := s.instance_cycle + 1 }, em,
              decide (0 < ([] : List Nat).length))

/-- `ComponentInstance::run` (`while self.step() {}`), with explicit fuel:
`none` when the fuel runs out or a step aborts, otherwise the state at
quiescence (the first step that returned false). -/
def ComponentInstance.runFuel : Nat → ComponentInstance → Option ComponentInstance
  | 0, _ => none
  | fuel + 1, s =>
    match s.step with
    | none => none
    | some (s', _, b) => if b then ComponentInstance.runFuel fuel s' else some s'

/-- The 4-node graph of the `it_works` test in component_instance.rs:
`A(OneShot) --Signal(0)--> B(Relay)`, `B --Association--> C(Relay)`,
`B --Signal(0)--> D(Relay)`, with A = 0, B = 1, C = 2, D = 3. -/
def itWorksGraph : ComponentGraph :=
  { nodes := [Node.Cell Cell.one_shot, Node.Cell Cell.relay, Node.Cell Cell.relay,
              Node.Cell Cell.relay],
    edges := [⟨0, 1, Edge.Signal 0⟩, ⟨1, 2, Edge.Association⟩, ⟨1, 3, Edge.Signal 0⟩] }

/-- C6: `ComponentInstance::step()` returns true exactly when the instance is
still active in the spec's sense: its return value equals
`staged_nodes.len() > 0 || fired_nodes.len() > 0` evaluated on the state at the
end of the step (which is `is_active`; the staged list is always empty at the
end of a step, so the source's `fired_nodes.len() > 0` coincides with it). -/
theorem c6_step_returns_is_active (s s' : ComponentInstance) (em : List Nat) (b : Bool)
    (h : s.step = some (s', em, b)) : b = s'.is_active := by
  unfold ComponentInstance.step at h
  split at h
  · exact absurd h (by simp)
  · split at h
    · exact absurd h (by simp)
    · rename_i g1 hp t g2 staged2 em2 hs
      split at h
      · split at h
        · exact absurd h (by simp)
        · rename_i hl t2 g3 fired3 hpr
          simp only [Option.some.injEq, Prod.mk.injEq] at h
          obtain ⟨h4, -, h5⟩ := h
          subst h4; subst h5
          simp [ComponentInstance.is_active]
      · rename_i hl
        simp only [Option.some.injEq, Prod.mk.injEq] at h
        obtain ⟨h4, -, h5⟩ := h
        subst h4; subst h5
        have h0 : staged2.length = 0 := by omega
        simp [ComponentInstance.is_active, h0]

/-- Witness for `c6_step_returns_is_active`: stepping an idle instance of the
4-node test graph returns false, and the resulting state is inactive. -/
theorem c6_step_returns_is_active_witness :
    false = ({ graph := itWorksGraph, fired_nodes := [], active_nodes := [],
               staged_nodes := [], instance_cycle := 1 } : ComponentInstance).is_active :=
  c6_step_returns_is_active (ComponentInstance.new itWorksGraph [])
    { graph := itWorksGraph, fired_nodes := [], active_nodes := [],
      staged_nodes := [], instance_cycle := 1 } [] false (by decide)

/-- C7: on the 4-node graph `A(OneShot) --Signal(0)--> B(Relay)`,
`B --Association--> C(Relay)`, `B --Signal(0)--> D(Relay)` with A the only
initially staged node, `run()` reaches quiescence with the instance cycle
counter equal to exactly 4 (the assertion of the `it_works` test). -/
theorem c7_run_four_cycles :
    (ComponentInstance.runFuel 10 (ComponentInstance.new itWorksGraph [0])).map
      (fun s => s.instance_cycle) = some 4 := by
  decide

/-- C8: a single `step()` on an instance whose fired, staged and active lists
are all empty (the source `ComponentInstance` has no incoming-signal queue)
returns false, increments the cycle counter by exactly 1, and changes no node
flags or signals (the whole graph, and every other field, is unchanged). -/
theorem c8_idle_step (s : ComponentInstance) (h1 : s.fired_nodes = [])
    (h2 : s.staged_nodes = []) (h3 : s.active_nodes = []) :
    s.step = some ({ s with instance_cycle := s.instance_cycle + 1 }, [], false) := by
  obtain ⟨g, fired, active, staged, cyc⟩ := s
  simp only at h1 h2 h3
  subst h1; subst h2; subst h3
  simp [ComponentInstance.step, propagate_fired_signals, stage_signaled_and_associated_nodes]

/-- Witness for `c8_idle_step` at an idle instance of the 4-node test graph. -/
theorem c8_idle_step_witness :
    (ComponentInstance.new itWorksGraph []).step =
      some ({ ComponentInstance.new itWorksGraph [] with instance_cycle := 1 }, [], false) :=
  c8_idle_step (ComponentInstance.new itWorksGraph []) rfl rfl rfl

/-! ## C3: the STAGED flag is not cleared when an active cell is processed -/

/-- A `Relay`-or-`OneShot` match with identical arms reduces to setting FIRED. -/
theorem cell_fire_match (c : Cell) :
    (match c.cell_type with
      | CellType.Relay => { c with flags := { c.flags with fired := true } }
      | CellType.OneShot => { c with flags := { c.flags with fired := true } }) =
    { c with flags := { c.flags with fired := true } } := by
  cases c.cell_type <;> rfl

/-- A one-node graph holding a single staged relay cell. -/
def c3Graph : ComponentGraph :=
  { nodes := [Node.Cell { cell_type := CellType.Relay, flags := { fired := false, staged := true }, signals := 0 }],
    edges := [] }

/-- The same graph after the cell has been processed: FIRED set, STAGED still set. -/
def c3GraphAfter : ComponentGraph :=
  { nodes := [Node.Cell { cell_type := CellType.Relay, flags := { fired := true, staged := true }, signals := 0 }],
    edges := [] }

/-- C3 counterexample: stepping an instance whose only cell is staged (STAGED
set, on the staged list) processes it in phase 3, but the resulting cell still
has STAGED set — `process_active_nodes` (component_instance.rs lines 170-183)
inserts FIRED and resets `signals` without ever removing STAGED, so the claimed
"STAGED flag is cleared" is false at this input. -/
theorem c3_staged_not_cleared :
    ComponentInstance.step
        { graph := c3Graph, fired_nodes := [], active_nodes := [], staged_nodes := [0],
          instance_cycle := 0 } =
      some ({ graph := c3GraphAfter, fired_nodes := [0], active_nodes := [0],
              staged_nodes := [], instance_cycle := 1 }, [], true) := by
  decide

/-- C3 amended: when an active cell is processed in phase 3, its FIRED flag is
set and its `signals` bitset is reset to 0, but its STAGED flag is NOT cleared:
`process_active_nodes` preserves the STAGED bit of every cell.  Consequently a
cell that was staged and then processed keeps STAGED set, and (since staging is
guarded by `!flags.contains(STAGED)`) it is not eligible to be staged again in
a later cycle. -/
theorem c3_amended_process_preserves_staged
    (active : List Nat) (g : ComponentGraph) (fired : List Nat)
    (g' : ComponentGraph) (fired' : List Nat) (ix : Nat) (c c' : Cell)
    (h : process_active_nodes g fired active = some (g', fired'))
    (hc : g.nodes.get? ix = some (Node.Cell c))
    (hc' : g'.nodes.get? ix = some (Node.Cell c')) :
    c'.flags.staged = c.flags.staged ∧
    (c.flags.fired = true ∧ c.signals = 0 → c'.flags.fired = true ∧ c'.signals = 0) ∧
    (ix ∈ active → c'.flags.fired = true ∧ c'.signals = 0) := by
  induction active generalizing g fired c with
  | nil =>
    simp only [process_active_nodes, Option.some.injEq, Prod.mk.injEq] at h
    obtain ⟨rfl, rfl⟩ := h
    have hcc := hc.symm.trans hc'
    simp only [Option.some.injEq, Node.Cell.injEq] at hcc
    subst hcc
    exact ⟨rfl, fun hh => hh, by simp⟩
  | cons a rest ih =>
    simp only [process_active_nodes] at h
    split at h
    · rename_i ca hca
      rw [cell_fire_match] at h
      simp only at h
      by_cases hax : a = ix
      · subst hax
        have hcc := hca.symm.trans hc
        simp only [Option.some.injEq, Node.Cell.injEq] at hcc
        subst hcc
        have hnew : ({ g with nodes := g.nodes.set a (Node.Cell { ca with flags := { ca.flags with fired := true }, signals := 0 }) } : ComponentGraph).nodes.get? a
            = some (Node.Cell { ca with flags := { ca.flags with fired := true }, signals := 0 }) := by
          simp only [List.get?_set_eq, hca, Option.map_eq_map, Option.map_some']
        obtain ⟨ih1, ih2, ih3⟩ := ih _ _ _ h hnew
        refine ⟨ih1, ?_, ?_⟩
        · intro _
          exact ih2 ⟨rfl, rfl⟩
        · intro _
          exact ih2 ⟨rfl, rfl⟩
      · have hnew : ({ g with nodes := g.nodes.set a (Node.Cell { ca with flags := { ca.flags with fired := true }, signals := 0 }) } : ComponentGraph).nodes.get? ix = some (Node.Cell c) := by
          rw [List.get?_set_ne _ _ hax]
          exact hc
        obtain ⟨ih1, ih2, ih3⟩ := ih _ _ _ h hnew
        refine ⟨ih1, ih2, ?_⟩
        · intro hmem
          rcases List.mem_cons.mp hmem with hmem | hmem
          · exact absurd hmem.symm hax
          · exact ih3 hmem
    · rename_i name cf hca
      have hax : a ≠ ix := by
        intro hax
        rw [hax, hc] at hca
        exact Node.noConfusion (Option.some.inj hca)
      have hnew : ({ g with nodes := g.nodes.set a (Node.ConnectorIn name { cf with fired := true }) } : ComponentGraph).nodes.get? ix = some (Node.Cell c) := by
        rw [List.get?_set_ne _ _ hax]
        exact hc
      obtain ⟨ih1, ih2, ih3⟩ := ih _ _ _ h hnew
      refine ⟨ih1, ih2, ?_⟩
      intro hmem
      rcases List.mem_cons.mp hmem with hmem | hmem
      · exact absurd hmem.symm hax
      · exact ih3 hmem
    · exact absurd h (by simp)

/-- Witness for `c3_amended_process_preserves_staged`: processing the staged
cell of `c3Graph` keeps STAGED set while setting FIRED and zeroing `signals`. -/
theorem c3_amended_process_preserves_staged_witness :
    (({ cell_type := CellType.Relay, flags := { fired := true, staged := true }, signals := 0 } : Cell).flags.staged
      = ({ cell_type := CellType.Relay, flags := { fired := false, staged := true }, signals := 0 } : Cell).flags.staged) ∧
    (({ cell_type := CellType.Relay, flags := { fired := false, staged := true }, signals := 0 } : Cell).flags.fired = true ∧
        ({ cell_type := CellType.Relay, flags := { fired := false, staged := true }, signals := 0 } : Cell).signals = 0 →
      ({ cell_type := CellType.Relay, flags := { fired := true, staged := true }, signals := 0 } : Cell).flags.fired = true ∧
        ({ cell_type := CellType.Relay, flags := { fired := true, staged := true }, signals := 0 } : Cell).signals = 0) ∧
    ((0 : Nat) ∈ [0] →
      ({ cell_type := CellType.Relay, flags := { fired := true, staged := true }, signals := 0 } : Cell).flags.fired = true ∧
        ({ cell_type := CellType.Relay, flags := { fired := true, staged := true }, signals := 0 } : Cell).signals = 0) :=
  c3_amended_process_preserves_staged [0] c3Graph [] c3GraphAfter [0] 0
    { cell_type := CellType.Relay, flags := { fired := false, staged := true }, signals := 0 }
    { cell_type := CellType.Relay, flags := { fired := true, staged := true }, signals := 0 }
    (by decide) (by decide) (by decide)

/-! ## C2: ordering of association staging relative to signal staging -/

/-- Whether an edge weight is a `Signal` edge. -/
def Edge.isSignal : Edge → Bool
  | Edge.Signal _ => true
  | _ => false

/-- Whether an edge weight is an `Association` edge. -/
def Edge.isAssociation : Edge → Bool
  | Edge.Association => true
  | _ => false

/-- Node `c` is the target of a `Signal` edge going out of node `f`. -/
def isSignalTargetOf (g : ComponentGraph) (f c : Nat) : Prop :=
  ∃ e ∈ g.outgoing f, e.tgt = c ∧ e.weight.isSignal = true

/-- Node `c` is the target of an `Association` edge going out of node `f`. -/
def isAssocTargetOf (g : ComponentGraph) (f c : Nat) : Prop :=
  ∃ e ∈ g.outgoing f, e.tgt = c ∧ e.weight.isAssociation = true

instance (g : ComponentGraph) (f c : Nat) : Decidable (isSignalTargetOf g f c) :=
  List.decidableBEx _ _

instance (g : ComponentGraph) (f c : Nat) : Decidable (isAssocTargetOf g f c) :=
  List.decidableBEx _ _

/-- The signal-staging pass only rewrites node weights; the edge list is kept. -/
theorem stageSignalEdges_edges (L : List BEdge) (g : ComponentGraph) (staged em : List Nat)
    (g' : ComponentGraph) (staged' em' : List Nat)
    (h : stageSignalEdges g staged em L = some (g', staged', em')) : g'.edges = g.edges := by
  induction L generalizing g staged em with
  | nil =>
    simp only [stageSignalEdges, Option.some.injEq, Prod.mk.injEq] at h
    obtain ⟨rfl, -, -⟩ := h
    rfl
  | cons e rest ih =>
    simp only [stageSignalEdges] at h
    split at h
    · split at h
      · split at h
        · exact ih _ _ _ h
        · have hh := ih _ _ _ h
          exact hh
      · exact ih _ _ _ h
      · exact absurd h (by simp)
    · exact ih _ _ _ h

/-- The association-staging pass only rewrites node weights; the edge list is kept. -/
theorem stageAssocEdges_edges (L : List BEdge) (g : ComponentGraph) (staged : List Nat) :
    (stageAssocEdges g staged L).1.edges = g.edges := by
  induction L generalizing g staged with
  | nil => rfl
  | cons e rest ih =>
    simp only [stageAssocEdges]
    split
    · split
      · split
        · exact ih _ _
        · exact ih _ _
      · exact ih _ _
    · exact ih _ _

/-- The outgoing-edge list only depends on the edge list. -/
theorem outgoing_eq_of_edges (g g' : ComponentGraph) (h : g'.edges = g.edges) (ix : Nat) :
    g'.outgoing ix = g.outgoing ix := by
  simp [ComponentGraph.outgoing, h]

/-- The signal-staging pass appends to the staged list, and every appended
index is the target of a `Signal` edge of the processed edge list. -/
theorem stageSignalEdges_staged_append (L : List BEdge) (g : ComponentGraph)
    (staged em : List Nat) (g' : ComponentGraph) (staged' em' : List Nat)
    (h : stageSignalEdges g staged em L = some (g', staged', em')) :
    ∃ d, staged' = staged ++ d ∧ ∀ x ∈ d, ∃ e ∈ L, e.tgt = x ∧ e.weight.isSignal = true := by
  induction L generalizing g staged em with
  | nil =>
    simp only [stageSignalEdges, Option.some.injEq, Prod.mk.injEq] at h
    obtain ⟨-, rfl, -⟩ := h
    exact ⟨[], by simp⟩
  | cons e rest ih =>
    simp only [stageSignalEdges] at h
    split at h
    · rename_i b hw
      split at h
      · split at h
        · obtain ⟨d, rfl, hd⟩ := ih _ _ _ h
          exact ⟨d, rfl, fun x hx => by
            obtain ⟨e', he', h1, h2⟩ := hd x hx
            exact ⟨e', List.mem_cons_of_mem _ he', h1, h2⟩⟩
        · obtain ⟨d, hd1, hd⟩ := ih _ _ _ h
          refine ⟨e.tgt :: d, ?_, ?_⟩
          · rw [hd1, List.append_assoc, List.singleton_append]
          · intro x hx
            rcases List.mem_cons.mp hx with rfl | hx
            · exact ⟨e, List.mem_cons_self _ _, rfl, by rw [hw]; rfl⟩
            · obtain ⟨e', he', h1, h2⟩ := hd x hx
              exact ⟨e', List.mem_cons_of_mem _ he', h1, h2⟩
      · obtain ⟨d, rfl, hd⟩ := ih _ _ _ h
        exact ⟨d, rfl, fun x hx => by
          obtain ⟨e', he', h1, h2⟩ := hd x hx
          exact ⟨e', List.mem_cons_of_mem _ he', h1, h2⟩⟩
      · exact absurd h (by simp)
    · obtain ⟨d, rfl, hd⟩ := ih _ _ _ h
      exact ⟨d, rfl, fun x hx => by
        obtain ⟨e', he', h1, h2⟩ := hd x hx
        exact ⟨e', List.mem_cons_of_mem _ he', h1, h2⟩⟩

/-- The association-staging pass appends to the staged list, and every appended
index is the target of an `Association` edge of the processed edge list. -/
theorem stageAssocEdges_staged_append (L : List BEdge) (g : ComponentGraph)
    (staged : List Nat) :
    ∃ d, (stageAssocEdges g staged L).2 = staged ++ d ∧
      ∀ x ∈ d, ∃ e ∈ L, e.tgt = x ∧ e.weight.isAssociation = true := by
  induction L generalizing g staged with
  | nil => exact ⟨[], by simp [stageAssocEdges]⟩
  | cons e rest ih =>
    simp only [stageAssocEdges]
    split
    · rename_i hw
      split
      · split
        · obtain ⟨d, hd1, hd⟩ := ih _ _
          exact ⟨d, hd1, fun x hx => by
            obtain ⟨e', he', h1, h2⟩ := hd x hx
            exact ⟨e', List.mem_cons_of_mem _ he', h1, h2⟩⟩
        · obtain ⟨d, hd1, hd⟩ := ih _ _
          refine ⟨e.tgt :: d, ?_, ?_⟩
          · rw [hd1, List.append_assoc, List.singleton_append]
          · intro x hx
            rcases List.mem_cons.mp hx with rfl | hx
            · exact ⟨e, List.mem_cons_self _ _, rfl, by rw [hw]; rfl⟩
            · obtain ⟨e', he', h1, h2⟩ := hd x hx
              exact ⟨e', List.mem_cons_of_mem _ he', h1, h2⟩
      · obtain ⟨d, hd1, hd⟩ := ih _ _
        exact ⟨d, hd1, fun x hx => by
          obtain ⟨e', he', h1, h2⟩ := hd x hx
          exact ⟨e', List.mem_cons_of_mem _ he', h1, h2⟩⟩
    · obtain ⟨d, hd1, hd⟩ := ih _ _
      exact ⟨d, hd1, fun x hx => by
        obtain ⟨e', he', h1, h2⟩ := hd x hx
        exact ⟨e', List.mem_cons_of_mem _ he', h1, h2⟩⟩

/-- Two relay cells X (index 0) and Y (index 1) fired simultaneously, with
`X --Association--> 2` and `Y --Signal(0)--> 3`. -/
def c2Graph : ComponentGraph :=
  { nodes := [Node.Cell Cell.relay, Node.Cell Cell.relay, Node.Cell Cell.relay,
              Node.Cell Cell.relay],
    edges := [⟨0, 2, Edge.Association⟩, ⟨1, 3, Edge.Signal 0⟩] }

/-- C2 counterexample: staging the batch of simultaneously fired nodes `[0, 1]`
on `c2Graph` produces the staged list `[2, 3]`: node 2, the target of node 0's
`Association` edge, is pushed BEFORE node 3, the target of node 1's `Signal`
edge — the association pass runs per fired node (inside the same loop
iteration), not after all signal staging of the whole batch, so an Association
target can precede a Signal target of a later fired node of the same batch. -/
theorem c2_assoc_staged_before_sibling_signal :
    (stage_signaled_and_associated_nodes c2Graph [] [] [0, 1]).map (fun r => r.2.1) =
        some [2, 3] ∧
      isAssocTargetOf c2Graph 0 2 ∧ isSignalTargetOf c2Graph 1 3 := by
  exact ⟨by decide, by decide, by decide⟩

/-- C2 amended: the ordering guarantee holds per fired node, not per batch.
Within the processing of one fired node `f`, the staged list is extended first
by targets of `f`'s `Signal` edges (the signal pass output `staged1` is a
prefix of the final staged list) and only then by targets of `f`'s
`Association` edges.  (Batch-wide, the bit-propagation phase
`propagate_fired_signals` does run before all staging, but the staged-list
ordering itself is only per-node.) -/
theorem c2_amended_assoc_after_signal_per_node
    (g : ComponentGraph) (staged em : List Nat) (f : Nat)
    (g1 : ComponentGraph) (staged1 em1 : List Nat)
    (g' : ComponentGraph) (staged' em' : List Nat)
    (hsig : stageSignalEdges g staged em (g.outgoing f) = some (g1, staged1, em1))
    (h : stageNode g staged em f = some (g', staged', em')) :
    staged'.take staged1.length = staged1 ∧
    (∀ x ∈ staged'.drop staged1.length, isAssocTargetOf g f x) ∧
    (∀ x ∈ staged1.drop staged.length, isSignalTargetOf g f x) := by
  have hedges : g1.edges = g.edges := stageSignalEdges_edges _ _ _ _ _ _ _ hsig
  have hout : g1.outgoing f = g.outgoing f := outgoing_eq_of_edges _ _ hedges f
  have hsigapp := stageSignalEdges_staged_append _ _ _ _ _ _ _ hsig
  obtain ⟨d0, hd01, hd0⟩ := hsigapp
  have hpart3 : ∀ x ∈ staged1.drop staged.length, isSignalTargetOf g f x := by
    intro x hx
    rw [hd01, List.drop_left] at hx
    exact hd0 x hx
  simp only [stageNode, hsig] at h
  cases hgf : g1.nodes.get? f with
  | some n =>
    cases n with
    | Cell c =>
      rw [hgf] at h
      simp only at h
      obtain ⟨d, hd1, hd⟩ := stageAssocEdges_staged_append (g1.outgoing f) g1 staged1
      have hstagedeq : staged' = staged1 ++ d := by
        rw [← hd1]
        split at h
        · simp only [Option.some.injEq, Prod.mk.injEq] at h
          exact h.2.1.symm
        · simp only [Option.some.injEq, Prod.mk.injEq] at h
          exact h.2.1.symm
        · exact absurd h (by simp)
      refine ⟨by rw [hstagedeq, List.take_left], ?_, hpart3⟩
      intro x hx
      rw [hstagedeq, List.drop_left] at hx
      obtain ⟨e', he', h1, h2⟩ := hd x hx
      rw [hout] at he'
      exact ⟨e', he', h1, h2⟩
    | ConnectorIn name cf =>
      rw [hgf] at h
      simp only at h
      split at h
      · rename_i c2 hc2
        exact absurd (hgf.symm.trans hc2) (by simp)
      · simp only [Option.some.injEq, Prod.mk.injEq] at h
        obtain ⟨-, h2, -⟩ := h
        subst h2
        refine ⟨List.take_length staged1, ?_, hpart3⟩
        intro x hx
        rw [List.drop_length] at hx
        exact absurd hx (List.not_mem_nil _)
      · exact absurd h (by simp)
    | ConnectorOut t =>
      rw [hgf] at h
      simp only at h
      split at h
      · rename_i c2 hc2
        exact absurd (hgf.symm.trans hc2) (by simp)
      · rename_i name2 cf2 hc2
        exact absurd (hgf.symm.trans hc2) (by simp)
      · exact absurd h (by simp)
    | Component =>
      rw [hgf] at h
      simp only at h
      split at h
      · rename_i c2 hc2
        exact absurd (hgf.symm.trans hc2) (by simp)
      · rename_i name2 cf2 hc2
        exact absurd (hgf.symm.trans hc2) (by simp)
      · exact absurd h (by simp)
  | none =>
    rw [hgf] at h
    simp only at h
    split at h
    · rename_i c2 hc2
      exact absurd (hgf.symm.trans hc2) (by simp)
    · rename_i name2 cf2 hc2
      exact absurd (hgf.symm.trans hc2) (by simp)
    · exact absurd h (by simp)

/-- Witness for `c2_amended_assoc_after_signal_per_node`: processing fired node
1 of `c2Graph` (one signal edge to node 3, no association edges). -/
theorem c2_amended_assoc_after_signal_per_node_witness :
    ([3] : List Nat).take 1 = [1].drop 1 ++ [3] ∧
    (∀ x ∈ ([3] : List Nat).drop 1, isAssocTargetOf c2Graph 1 x) ∧
    (∀ x ∈ ([3] : List Nat).drop 0, isSignalTargetOf c2Graph 1 x) := by
  have h := c2_amended_assoc_after_signal_per_node c2Graph [] [] 1
    { c2Graph with nodes := [Node.Cell Cell.relay, Node.Cell Cell.relay, Node.Cell Cell.relay,
        Node.Cell { Cell.relay with flags := { fired := false, staged := true } }] } [3] []
    { nodes := [Node.Cell Cell.relay, Node.Cell { Cell.relay with flags := CellFlags.empty },
        Node.Cell Cell.relay,
        Node.Cell { Cell.relay with flags := { fired := false, staged := true } }],
      edges := c2Graph.edges } [3] []
    (by decide) (by decide)
  exact ⟨by decide, h.2.1, h.2.2⟩

/-! ## C4: behaviour on Signal edges whose target is not a Cell -/

/-- Constructor tag of an optional node weight: 0 = missing, 1 = `Cell`,
2 = `ConnectorIn`, 3 = `ConnectorOut`, 4 = `Component`. -/
def kindOf : Option Node → Nat
  | none => 0
  | some (Node.Cell _) => 1
  | some (Node.ConnectorIn _ _) => 2
  | some (Node.ConnectorOut _) => 3
  | some Node.Component => 4

/-- Replacing a node weight by one of the same constructor preserves every
node's constructor tag. -/
theorem kindOf_set (l : List Node) (j : Nat) (x : Node)
    (hx : kindOf (l.get? j) = kindOf (some x)) (t : Nat) :
    kindOf ((l.set j x).get? t) = kindOf (l.get? t) := by
  by_cases hjt : j = t
  · subst hjt
    rw [List.get?_set_eq]
    cases hj : l.get? j with
    | none => simp
    | some y =>
      rw [hj] at hx
      simpa using hx.symm
  · rw [List.get?_set_ne _ _ hjt]

/-- The signal-staging pass preserves every node's constructor tag. -/
theorem stageSignalEdges_kind (L : List BEdge) (g : ComponentGraph) (staged em : List Nat)
    (g' : ComponentGraph) (staged' em' : List Nat)
    (h : stageSignalEdges g staged em L = some (g', staged', em')) (t : Nat) :
    kindOf (g'.nodes.get? t) = kindOf (g.nodes.get? t) := by
  induction L generalizing g staged em with
  | nil =>
    simp only [stageSignalEdges, Option.some.injEq, Prod.mk.injEq] at h
    obtain ⟨rfl, -, -⟩ := h
    rfl
  | cons e rest ih =>
    simp only [stageSignalEdges] at h
    split at h
    · split at h
      · rename_i c hget
        split at h
        · exact ih _ _ _ h
        · have hh := ih _ _ _ h
          refine hh.trans ?_
          exact kindOf_set _ _ _ (by rw [hget]; rfl) t
      · exact ih _ _ _ h
      · exact absurd h (by simp)
    · exact ih _ _ _ h

/-- The association-staging pass preserves every node's constructor tag. -/
theorem stageAssocEdges_kind (L : List BEdge) (g : ComponentGraph) (staged : List Nat)
    (t : Nat) :
    kindOf ((stageAssocEdges g staged L).1.nodes.get? t) = kindOf (g.nodes.get? t) := by
  induction L generalizing g staged with
  | nil => rfl
  | cons e rest ih =>
    simp only [stageAssocEdges]
    split
    · split
      · rename_i c hget
        split
        · exact ih _ _
        · refine Eq.trans (ih _ _) ?_
          exact kindOf_set _ _ _ (by rw [hget]; rfl) t
      · exact ih _ _
    · exact ih _ _

/-- Processing one fired node in the staging phase keeps the edge list. -/
theorem stageNode_edges (g : ComponentGraph) (staged em : List Nat) (ix : Nat)
    (g' : ComponentGraph) (staged' em' : List Nat)
    (h : stageNode g staged em ix = some (g', staged', em')) : g'.edges = g.edges := by
  simp only [stageNode] at h
  split at h
  · exact absurd h (by simp)
  · rename_i t2 g1 staged1 em1 hsig
    have h1 : g1.edges = g.edges := stageSignalEdges_edges _ _ _ _ _ _ _ hsig
    cases hgf : g1.nodes.get? ix with
    | some n =>
      cases n with
      | Cell c =>
        rw [hgf] at h
        simp only at h
        split at h
        · rename_i c2 hc2
          simp only [Option.some.injEq, Prod.mk.injEq] at h
          obtain ⟨rfl, -, -⟩ := h
          exact (stageAssocEdges_edges _ _ _).trans h1
        · rename_i name2 cf2 hc2
          simp only [Option.some.injEq, Prod.mk.injEq] at h
          obtain ⟨rfl, -, -⟩ := h
          exact (stageAssocEdges_edges _ _ _).trans h1
        · exact absurd h (by simp)
      | ConnectorIn name cf =>
        rw [hgf] at h
        simp only at h
        split at h
        · rename_i c2 hc2
          exact absurd (hgf.symm.trans hc2) (by simp)
        · rename_i name2 cf2 hc2
          simp only [Option.some.injEq, Prod.mk.injEq] at h
          obtain ⟨rfl, -, -⟩ := h
          exact h1
        · exact absurd h (by simp)
      | ConnectorOut tio =>
        rw [hgf] at h
        simp only at h
        split at h
        · rename_i c2 hc2
          exact absurd (hgf.symm.trans hc2) (by simp)
        · rename_i name2 cf2 hc2
          exact absurd (hgf.symm.trans hc2) (by simp)
        · exact absurd h (by simp)
      | Component =>
        rw [hgf] at h
        simp only at h
        split at h
        · rename_i c2 hc2
          exact absurd (hgf.symm.trans hc2) (by simp)
        · rename_i name2 cf2 hc2
          exact absurd (hgf.symm.trans hc2) (by simp)
        · exact absurd h (by simp)
    | none =>
      rw [hgf] at h
      simp only at h
      split at h
      · rename_i c2 hc2
        exact absurd (hgf.symm.trans hc2) (by simp)
      · rename_i name2 cf2 hc2
        exact absurd (hgf.symm.trans hc2) (by simp)
      · exact absurd h (by simp)

/-- Processing one fired node in the staging phase preserves every node's
constructor tag. -/
theorem stageNode_kind (g : ComponentGraph) (staged em : List Nat) (ix : Nat)
    (g' : ComponentGraph) (staged' em' : List Nat)
    (h : stageNode g staged em ix = some (g', staged', em')) (t : Nat) :
    kindOf (g'.nodes.get? t) = kindOf (g.nodes.get? t) := by
  simp only [stageNode] at h
  split at h
  · exact absurd h (by simp)
  · rename_i t2 g1 staged1 em1 hsig
    have h1 : ∀ u, kindOf (g1.nodes.get? u) = kindOf (g.nodes.get? u) :=
      fun u => stageSignalEdges_kind _ _ _ _ _ _ _ hsig u
    cases hgf : g1.nodes.get? ix with
    | some n =>
      cases n with
      | Cell c =>
        rw [hgf] at h
        simp only at h
        split at h
        · rename_i c2 hc2
          simp only [Option.some.injEq, Prod.mk.injEq] at h
          obtain ⟨rfl, -, -⟩ := h
          refine Eq.trans (kindOf_set _ _ _ (by rw [hc2]; rfl) t) ?_
          exact Eq.trans (stageAssocEdges_kind _ _ _ t) (h1 t)
        · rename_i name2 cf2 hc2
          simp only [Option.some.injEq, Prod.mk.injEq] at h
          obtain ⟨rfl, -, -⟩ := h
          refine Eq.trans (kindOf_set _ _ _ (by rw [hc2]; rfl) t) ?_
          exact Eq.trans (stageAssocEdges_kind _ _ _ t) (h1 t)
        · exact absurd h (by simp)
      | ConnectorIn name cf =>
        rw [hgf] at h
        simp only at h
        split at h
        · rename_i c2 hc2
          exact absurd (hgf.symm.trans hc2) (by simp)
        · rename_i name2 cf2 hc2
          simp only [Option.some.injEq, Prod.mk.injEq] at h
          obtain ⟨rfl, -, -⟩ := h
          exact Eq.trans (kindOf_set _ _ _ (by rw [hc2]; rfl) t) (h1 t)
        · exact absurd h (by simp)
      | ConnectorOut tio =>
        rw [hgf] at h
        simp only at h
        split at h
        · rename_i c2 hc2
          exact absurd (hgf.symm.trans hc2) (by simp)
        · rename_i name2 cf2 hc2
          exact absurd (hgf.symm.trans hc2) (by simp)
        · exact absurd h (by simp)
      | Component =>
        rw [hgf] at h
        simp only at h
        split at h
        · rename_i c2 hc2
          exact absurd (hgf.symm.trans hc2) (by simp)
        · rename_i name2 cf2 hc2
          exact absurd (hgf.symm.trans hc2) (by simp)
        · exact absurd h (by simp)
    | none =>
      rw [hgf] at h
      simp only at h
      split at h
      · rename_i c2 hc2
        exact absurd (hgf.symm.trans hc2) (by simp)
      · rename_i name2 cf2 hc2
        exact absurd (hgf.symm.trans hc2) (by simp)
      · exact absurd h (by simp)

/-- If some edge of the processed list is a `Signal` edge whose target is
neither a `Cell` nor a `ConnectorOut`, the signal-staging pass hits the
`unimplemented!()` arm and aborts. -/
theorem stageSignalEdges_aborts (L : List BEdge) (g : ComponentGraph) (staged em : List Nat)
    (e0 : BEdge) (he : e0 ∈ L) (hsig : e0.weight.isSignal = true)
    (hkind : kindOf (g.nodes.get? e0.tgt) ≠ 1 ∧ kindOf (g.nodes.get? e0.tgt) ≠ 3) :
    stageSignalEdges g staged em L = none := by
  induction L generalizing g staged em with
  | nil => exact absurd he (List.not_mem_nil _)
  | cons e rest ih =>
    rcases List.mem_cons.mp he with rfl | he'
    · cases hw : e0.weight with
      | Signal b =>
        simp only [stageSignalEdges, hw]
        cases hget : g.nodes.get? e0.tgt with
        | none => rfl
        | some n =>
          cases n with
          | Cell c =>
            rw [hget] at hkind
            exact absurd rfl hkind.1
          | ConnectorIn name cf => rfl
          | ConnectorOut t =>
            rw [hget] at hkind
            exact absurd rfl hkind.2
          | Component => rfl
      | Association => exact absurd hsig (by simp [hw, Edge.isSignal])
      | Connection name => exact absurd hsig (by simp [hw, Edge.isSignal])
    · simp only [stageSignalEdges]
      split
      · split
        · rename_i c hget
          split
          · exact ih _ _ _ he' hkind
          · refine ih _ _ _ he' ?_
            constructor
            · rw [kindOf_set _ _ _ (by rw [hget]; rfl) e0.tgt]
              exact hkind.1
            · rw [kindOf_set _ _ _ (by rw [hget]; rfl) e0.tgt]
              exact hkind.2
        · exact ih _ _ _ he' hkind
        · rfl
      · exact ih _ _ _ he' hkind

/-- If a fired node `f` has a `Signal` edge to a target that is neither a
`Cell` nor a `ConnectorOut`, processing `f` in the staging phase aborts. -/
theorem stageNode_aborts (g : ComponentGraph) (staged em : List Nat) (f : Nat) (e0 : BEdge)
    (he : e0 ∈ g.outgoing f) (hsig : e0.weight.isSignal = true)
    (hkind : kindOf (g.nodes.get? e0.tgt) ≠ 1 ∧ kindOf (g.nodes.get? e0.tgt) ≠ 3) :
    stageNode g staged em f = none := by
  have h1 : stageSignalEdges g staged em (g.outgoing f) = none :=
    stageSignalEdges_aborts _ _ _ _ _ he hsig hkind
  simp only [stageNode, h1]

/-- The graph after the cell fired into the ConnectorOut and the step finished:
the cell's FIRED flag was cleared, nothing else changed. -/
def c4GraphAfter : ComponentGraph :=
  { nodes := [Node.Cell { cell_type := CellType.Relay, flags := { fired := false, staged := false }, signals := 0 },
              Node.ConnectorOut none],
    edges := [⟨0, 1, Edge.Signal 0⟩] }

/-- C4 counterexample: a fired cell with a `Signal` edge to a `ConnectorOut`
(a non-`Cell` target).  The step does NOT abort: `propagate_fired_signals`
silently skips the non-cell target (its `if let Node::Cell` has no else arm),
and the staging phase forwards the connector event (the emitted list `[1]`)
and completes the step normally, returning `some` — contradicting the claim
that a non-Cell target of a Signal edge makes the step abort with a
diagnostic during the propagation phase. -/
theorem c4_non_cell_signal_target_not_fatal :
    ComponentInstance.step
        { graph := { nodes := [Node.Cell { cell_type := CellType.Relay, flags := { fired := true, staged := false }, signals := 0 },
                               Node.ConnectorOut none],
                     edges := [⟨0, 1, Edge.Signal 0⟩] },
          fired_nodes := [0], active_nodes := [], staged_nodes := [], instance_cycle := 0 } =
      some ({ graph := c4GraphAfter, fired_nodes := [], active_nodes := [],
              staged_nodes := [], instance_cycle := 1 }, [1], false) := by
  decide

/-- C4 amended: the propagation phase never flags non-Cell targets; instead,
`ConnectorOut` targets are valid forwarding targets, and a `Signal` edge of a
fired node whose target is any other non-Cell kind (`ConnectorIn`, a component
reference, or missing) makes the whole staging phase of the same step abort
(the `unimplemented!()` panic) — though with a generic diagnostic, not one
identifying the node/edge. -/
theorem c4_amended_stage_aborts_on_invalid_signal_target
    (fired : List Nat) (g : ComponentGraph) (staged em : List Nat) (f : Nat) (e0 : BEdge)
    (hf : f ∈ fired) (hsig : e0.weight.isSignal = true)
    (he : e0 ∈ g.outgoing f)
    (hkind : kindOf (g.nodes.get? e0.tgt) ≠ 1 ∧ kindOf (g.nodes.get? e0.tgt) ≠ 3) :
    stage_signaled_and_associated_nodes g staged em fired = none := by
  revert he hkind
  induction fired generalizing g staged em with
  | nil => exact absurd hf (List.not_mem_nil _)
  | cons a rest ih =>
    intro he hkind
    simp only [stage_signaled_and_associated_nodes]
    rcases List.mem_cons.mp hf with rfl | hf'
    · rw [stageNode_aborts _ _ _ _ _ he hsig hkind]
    · cases hsn : stageNode g staged em a with
      | none => rfl
      | some t3 =>
        obtain ⟨g1, staged1, em1⟩ := t3
        have hedges := stageNode_edges _ _ _ _ _ _ _ hsn
        have hout : g1.outgoing f = g.outgoing f := outgoing_eq_of_edges _ _ hedges f
        refine ih g1 staged1 em1 hf' (by rw [hout]; exact he) ?_
        constructor
        · rw [stageNode_kind _ _ _ _ _ _ _ hsn e0.tgt]
          exact hkind.1
        · rw [stageNode_kind _ _ _ _ _ _ _ hsn e0.tgt]
          exact hkind.2

/-- Witness for `c4_amended_stage_aborts_on_invalid_signal_target`: a fired
cell with a `Signal` edge to a `ConnectorIn` aborts the staging phase. -/
theorem c4_amended_stage_aborts_witness :
    stage_signaled_and_associated_nodes
      { nodes := [Node.Cell { cell_type := CellType.Relay, flags := { fired := true, staged := false }, signals := 0 },
                  Node.ConnectorIn "x" CellFlags.empty],
        edges := [⟨0, 1, Edge.Signal 0⟩] } [] [] [0] = none :=
  c4_amended_stage_aborts_on_invalid_signal_target [0]
    { nodes := [Node.Cell { cell_type := CellType.Relay, flags := { fired := true, staged := false }, signals := 0 },
                Node.ConnectorIn "x" CellFlags.empty],
      edges := [⟨0, 1, Edge.Signal 0⟩] } [] [] 0 ⟨0, 1, Edge.Signal 0⟩
    (by decide) (by decide) (by decide) (by decide)

/-! ## C9: idempotence of staging within a cycle -/

/-- The STAGED flag of the cell at index `c`, when that node is a cell. -/
def stagedFlagAt (nodes : List Node) (c : Nat) : Option Bool :=
  match nodes.get? c with
  | some (Node.Cell cc) => some cc.flags.staged
  | _ => none

/-- The staging invariant for a cell `c`: either its STAGED flag is clear and
it occurs 0 times in the staged list, or the flag is set and it occurs exactly
once. -/
def StagedInv (c : Nat) (nodes : List Node) (st : List Nat) : Prop :=
  (stagedFlagAt nodes c = some false ∧ st.count c = 0) ∨
  (stagedFlagAt nodes c = some true ∧ st.count c = 1)

/-- Cell `c` has been staged exactly once: STAGED set and one occurrence. -/
def StagedOnce (c : Nat) (nodes : List Node) (st : List Nat) : Prop :=
  stagedFlagAt nodes c = some true ∧ st.count c = 1

/-- Setting a different node does not change `c`'s staged flag. -/
theorem stagedFlagAt_set_ne (l : List Node) (j : Nat) (x : Node) (c : Nat) (h : j ≠ c) :
    stagedFlagAt (l.set j x) c = stagedFlagAt l c := by
  unfold stagedFlagAt
  rw [List.get?_set_ne _ _ h]

/-- Replacing a cell by a cell with the same STAGED bit does not change any
staged flag. -/
theorem stagedFlagAt_set_cell (l : List Node) (j : Nat) (cc x : Cell)
    (hj : l.get? j = some (Node.Cell cc)) (hs : x.flags.staged = cc.flags.staged) (c : Nat) :
    stagedFlagAt (l.set j (Node.Cell x)) c = stagedFlagAt l c := by
  by_cases hjc : j = c
  · subst hjc
    have h1 : (l.set j (Node.Cell x)).get? j = some (Node.Cell x) := by
      rw [List.get?_set_eq, hj]
      rfl
    unfold stagedFlagAt
    rw [h1, hj]
    simp [hs]
  · exact stagedFlagAt_set_ne _ _ _ _ hjc

/-- Replacing a ConnectorIn by a ConnectorIn does not change any staged flag. -/
theorem stagedFlagAt_set_conn (l : List Node) (j : Nat) (name : String) (cf x : CellFlags)
    (hj : l.get? j = some (Node.ConnectorIn name cf)) (c : Nat) :
    stagedFlagAt (l.set j (Node.ConnectorIn name x)) c = stagedFlagAt l c := by
  by_cases hjc : j = c
  · subst hjc
    have h1 : (l.set j (Node.ConnectorIn name x)).get? j = some (Node.ConnectorIn name x) := by
      rw [List.get?_set_eq, hj]
      rfl
    unfold stagedFlagAt
    rw [h1, hj]
  · exact stagedFlagAt_set_ne _ _ _ _ hjc

/-- Appending an index different from `c` does not change `c`'s count. -/
theorem count_append_ne (st : List Nat) (x c : Nat) (h : x ≠ c) :
    (st ++ [x]).count c = st.count c := by
  simp [List.count_append, List.count_cons, h, Ne.symm h]

/-- Appending `c` itself increments `c`'s count. -/
theorem count_append_self (st : List Nat) (c : Nat) :
    (st ++ [c]).count c = st.count c + 1 := by
  simp [List.count_append, List.count_cons]

/-- The signal-staging pass preserves the staging invariant and the
staged-exactly-once state of any cell. -/
theorem stageSignalEdges_inv (L : List BEdge) (g : ComponentGraph) (staged em : List Nat)
    (g' : ComponentGraph) (staged' em' : List Nat) (c : Nat)
    (h : stageSignalEdges g staged em L = some (g', staged', em')) :
    (StagedInv c g.nodes staged → StagedInv c g'.nodes staged') ∧
    (StagedOnce c g.nodes staged → StagedOnce c g'.nodes staged') := by
  induction L generalizing g staged em with
  | nil =>
    simp only [stageSignalEdges, Option.some.injEq, Prod.mk.injEq] at h
    obtain ⟨rfl, rfl, -⟩ := h
    exact ⟨id, id⟩
  | cons e rest ih =>
    simp only [stageSignalEdges] at h
    split at h
    · split at h
      · rename_i ct hget
        split at h
        · exact ih _ _ _ h
        · rename_i hstag
          obtain ⟨ih1, ih2⟩ := ih _ _ _ h
          have hflagtgt : stagedFlagAt g.nodes e.tgt = some ct.flags.staged := by
            unfold stagedFlagAt
            rw [hget]
          by_cases htc : e.tgt = c
          · subst htc
            constructor
            · intro hinv
              apply ih1
              rcases hinv with ⟨hf, hcnt⟩ | ⟨hf, -⟩
              · right
                refine ⟨?_, ?_⟩
                · have h1 : (g.nodes.set e.tgt (Node.Cell { ct with flags := { ct.flags with staged := true } })).get? e.tgt
                      = some (Node.Cell { ct with flags := { ct.flags with staged := true } }) := by
                    rw [List.get?_set_eq, hget]
                    rfl
                  unfold stagedFlagAt
                  rw [h1]
                · rw [count_append_self, hcnt]
              · rw [hflagtgt] at hf
                simp only [Option.some.injEq] at hf
                exact absurd hf hstag
            · intro honce
              obtain ⟨hf, -⟩ := honce
              rw [hflagtgt] at hf
              simp only [Option.some.injEq] at hf
              exact absurd hf hstag
          · have hstf := stagedFlagAt_set_ne g.nodes e.tgt
              (Node.Cell { ct with flags := { ct.flags with staged := true } }) c htc
            have hcnteq := count_append_ne staged e.tgt c htc
            constructor
            · intro hinv
              apply ih1
              unfold StagedInv at hinv ⊢
              rw [hstf, hcnteq]
              exact hinv
            · intro honce
              apply ih2
              unfold StagedOnce at honce ⊢
              rw [hstf, hcnteq]
              exact honce
      · exact ih _ _ _ h
      · exact absurd h (by simp)
    · exact ih _ _ _ h

/-- The association-staging pass preserves the staging invariant and the
staged-exactly-once state of any cell. -/
theorem stageAssocEdges_inv (L : List BEdge) (g : ComponentGraph) (staged : List Nat)
    (c : Nat) :
    (StagedInv c g.nodes staged →
      StagedInv c (stageAssocEdges g staged L).1.nodes (stageAssocEdges g staged L).2) ∧
    (StagedOnce c g.nodes staged →
      StagedOnce c (stageAssocEdges g staged L).1.nodes (stageAssocEdges g staged L).2) := by
  induction L generalizing g staged with
  | nil => exact ⟨id, id⟩
  | cons e rest ih =>
    simp only [stageAssocEdges]
    split
    · split
      · rename_i ct hget
        split
        · exact ih _ _
        · rename_i hstag
          obtain ⟨ih1, ih2⟩ := ih
            { g with nodes := g.nodes.set e.tgt (Node.Cell { ct with flags := { ct.flags with staged := true } }) }
            (staged ++ [e.tgt])
          have hflagtgt : stagedFlagAt g.nodes e.tgt = some ct.flags.staged := by
            unfold stagedFlagAt
            rw [hget]
          by_cases htc : e.tgt = c
          · subst htc
            constructor
            · intro hinv
              apply ih1
              rcases hinv with ⟨hf, hcnt⟩ | ⟨hf, -⟩
              · right
                refine ⟨?_, ?_⟩
                · have h1 : (g.nodes.set e.tgt (Node.Cell { ct with flags := { ct.flags with staged := true } })).get? e.tgt
                      = some (Node.Cell { ct with flags := { ct.flags with staged := true } }) := by
                    rw [List.get?_set_eq, hget]
                    rfl
                  unfold stagedFlagAt
                  rw [h1]
                · rw [count_append_self, hcnt]
              · rw [hflagtgt] at hf
                simp only [Option.some.injEq] at hf
                exact absurd hf hstag
            · intro honce
              obtain ⟨hf, -⟩ := honce
              rw [hflagtgt] at hf
              simp only [Option.some.injEq] at hf
              exact absurd hf hstag
          · have hstf := stagedFlagAt_set_ne g.nodes e.tgt
              (Node.Cell { ct with flags := { ct.flags with staged := true } }) c htc
            have hcnteq := count_append_ne staged e.tgt c htc
            constructor
            · intro hinv
              apply ih1
              unfold StagedInv at hinv ⊢
              rw [hstf, hcnteq]
              exact hinv
            · intro honce
              apply ih2
              unfold StagedOnce at honce ⊢
              rw [hstf, hcnteq]
              exact honce
      · exact ih _ _
    · exact ih _ _

/-- Processing one fired node preserves the staging invariant and the
staged-exactly-once state of any cell. -/
theorem stageNode_inv (g : ComponentGraph) (staged em : List Nat) (ix : Nat)
    (g' : ComponentGraph) (staged' em' : List Nat) (c : Nat)
    (h : stageNode g staged em ix = some (g', staged', em')) :
    (StagedInv c g.nodes staged → StagedInv c g'.nodes staged') ∧
    (StagedOnce c g.nodes staged → StagedOnce c g'.nodes staged') := by
  simp only [stageNode] at h
  split at h
  · exact absurd h (by simp)
  · rename_i t2 g1 staged1 em1 hsg
    obtain ⟨hs1, hs2⟩ := stageSignalEdges_inv _ _ _ _ _ _ _ c hsg
    cases hgf : g1.nodes.get? ix with
    | some n =>
      cases n with
      | Cell cc =>
        rw [hgf] at h
        simp only at h
        obtain ⟨ha1, ha2⟩ := stageAssocEdges_inv (g1.outgoing ix) g1 staged1 c
        split at h
        · rename_i c2 hc2
          simp only [Option.some.injEq, Prod.mk.injEq] at h
          obtain ⟨rfl, rfl, -⟩ := h
          have hpres := stagedFlagAt_set_cell
            (stageAssocEdges g1 staged1 (g1.outgoing ix)).1.nodes ix c2
            { c2 with flags := { c2.flags with fired := false } } hc2 rfl c
          constructor
          · intro hinv
            have hmid := ha1 (hs1 hinv)
            unfold StagedInv at hmid ⊢
            rw [hpres]
            exact hmid
          · intro honce
            have hmid := ha2 (hs2 honce)
            unfold StagedOnce at hmid ⊢
            rw [hpres]
            exact hmid
        · rename_i name2 cf2 hc2
          simp only [Option.some.injEq, Prod.mk.injEq] at h
          obtain ⟨rfl, rfl, -⟩ := h
          have hpres := stagedFlagAt_set_conn
            (stageAssocEdges g1 staged1 (g1.outgoing ix)).1.nodes ix name2 cf2
            { cf2 with fired := false } hc2 c
          constructor
          · intro hinv
            have hmid := ha1 (hs1 hinv)
            unfold StagedInv at hmid ⊢
            rw [hpres]
            exact hmid
          · intro honce
            have hmid := ha2 (hs2 honce)
            unfold StagedOnce at hmid ⊢
            rw [hpres]
            exact hmid
        · exact absurd h (by simp)
      | ConnectorIn name cf =>
        rw [hgf] at h
        simp only at h
        split at h
        · rename_i c2 hc2
          exact absurd (hgf.symm.trans hc2) (by simp)
        · rename_i name2 cf2 hc2
          simp only [Option.some.injEq, Prod.mk.injEq] at h
          obtain ⟨rfl, rfl, -⟩ := h
          have hpres := stagedFlagAt_set_conn g1.nodes ix name2 cf2
            { cf2 with fired := false } hc2 c
          constructor
          · intro hinv
            have hmid := hs1 hinv
            unfold StagedInv at hmid ⊢
            rw [hpres]
            exact hmid
          · intro honce
            have hmid := hs2 honce
            unfold StagedOnce at hmid ⊢
            rw [hpres]
            exact hmid
        · exact absurd h (by simp)
      | ConnectorOut tio =>
        rw [hgf] at h
        simp only at h
        split at h
        · rename_i c2 hc2
          exact absurd (hgf.symm.trans hc2) (by simp)
        · rename_i name2 cf2 hc2
          exact absurd (hgf.symm.trans hc2) (by simp)
        · exact absurd h (by simp)
      | Component =>
        rw [hgf] at h
        simp only at h
        split at h
        · rename_i c2 hc2
          exact absurd (hgf.symm.trans hc2) (by simp)
        · rename_i name2 cf2 hc2
          exact absurd (hgf.symm.trans hc2) (by simp)
        · exact absurd h (by simp)
    | none =>
      rw [hgf] at h
      simp only at h
      split at h
      · rename_i c2 hc2
        exact absurd (hgf.symm.trans hc2) (by simp)
      · rename_i name2 cf2 hc2
        exact absurd (hgf.symm.trans hc2) (by simp)
      · exact absurd h (by simp)

/-- The whole staging phase preserves the staging invariant and the
staged-exactly-once state of any cell. -/
theorem stage_inv (fired : List Nat) (g : ComponentGraph) (staged em : List Nat)
    (g' : ComponentGraph) (staged' em' : List Nat) (c : Nat)
    (h : stage_signaled_and_associated_nodes g staged em fired = some (g', staged', em')) :
    (StagedInv c g.nodes staged → StagedInv c g'.nodes staged') ∧
    (StagedOnce c g.nodes staged → StagedOnce c g'.nodes staged') := by
  induction fired generalizing g staged em with
  | nil =>
    simp only [stage_signaled_and_associated_nodes, Option.some.injEq, Prod.mk.injEq] at h
    obtain ⟨rfl, rfl, -⟩ := h
    exact ⟨id, id⟩
  | cons a rest ih =>
    simp only [stage_signaled_and_associated_nodes] at h
    split at h
    · rename_i t3 g1 staged1 em1 hsn
      obtain ⟨hn1, hn2⟩ := stageNode_inv _ _ _ _ _ _ _ c hsn
      obtain ⟨hr1, hr2⟩ := ih _ _ _ h
      exact ⟨fun hi => hr1 (hn1 hi), fun ho => hr2 (hn2 ho)⟩
    · exact absurd h (by simp)

/-- If a processed `Signal` edge targets cell `c` and the staging invariant
holds, then after the signal pass `c` is staged exactly once. -/
theorem stageSignalEdges_reach (L : List BEdge) (g : ComponentGraph) (staged em : List Nat)
    (g' : ComponentGraph) (staged' em' : List Nat) (c : Nat) (e0 : BEdge)
    (he : e0 ∈ L) (hsig : e0.weight.isSignal = true) (htc : e0.tgt = c)
    (h : stageSignalEdges g staged em L = some (g', staged', em'))
    (hinv : StagedInv c g.nodes staged) :
    StagedOnce c g'.nodes staged' := by
  revert hinv
  induction L generalizing g staged em with
  | nil => exact absurd he (List.not_mem_nil _)
  | cons e rest ih =>
    intro hinv
    rcases List.mem_cons.mp he with rfl | he'
    · cases hw : e0.weight with
      | Signal b =>
        simp only [stageSignalEdges, hw] at h
        rw [htc] at h
        cases hget : g.nodes.get? c with
        | none =>
          have hnone : stagedFlagAt g.nodes c = none := by
            unfold stagedFlagAt
            rw [hget]
          rcases hinv with ⟨hf, -⟩ | ⟨hf, -⟩ <;> rw [hnone] at hf <;> exact absurd hf (by simp)
        | some n =>
          cases n with
          | Cell ct =>
            rw [hget] at h
            have hflag : stagedFlagAt g.nodes c = some ct.flags.staged := by
              unfold stagedFlagAt
              rw [hget]
            cases hst : ct.flags.staged with
            | true =>
              simp only [hst, if_true] at h
              have honce : StagedOnce c g.nodes staged := by
                rcases hinv with ⟨hf, -⟩ | h2
                · rw [hflag, hst] at hf
                  exact absurd hf (by simp)
                · exact h2
              exact (stageSignalEdges_inv rest _ _ _ _ _ _ c h).2 honce
            | false =>
              simp only [hst, if_false, Bool.false_eq_true] at h
              have hcnt : staged.count c = 0 := by
                rcases hinv with ⟨-, h0⟩ | ⟨hf, -⟩
                · exact h0
                · rw [hflag, hst] at hf
                  exact absurd hf (by simp)
              have honce : StagedOnce c
                  (g.nodes.set c (Node.Cell { ct with flags := { ct.flags with staged := true } }))
                  (staged ++ [c]) := by
                constructor
                · have h1 : (g.nodes.set c (Node.Cell { ct with flags := { ct.flags with staged := true } })).get? c
                      = some (Node.Cell { ct with flags := { ct.flags with staged := true } }) := by
                    rw [List.get?_set_eq, hget]
                    rfl
                  unfold stagedFlagAt
                  rw [h1]
                · rw [count_append_self, hcnt]
              exact (stageSignalEdges_inv rest _ _ _ _ _ _ c h).2 honce
          | ConnectorIn name cf =>
            have hnone : stagedFlagAt g.nodes c = none := by
              unfold stagedFlagAt
              rw [hget]
            rcases hinv with ⟨hf, -⟩ | ⟨hf, -⟩ <;> rw [hnone] at hf <;> exact absurd hf (by simp)
          | ConnectorOut tio =>
            have hnone : stagedFlagAt g.nodes c = none := by
              unfold stagedFlagAt
              rw [hget]
            rcases hinv with ⟨hf, -⟩ | ⟨hf, -⟩ <;> rw [hnone] at hf <;> exact absurd hf (by simp)
          | Component =>
            have hnone : stagedFlagAt g.nodes c = none := by
              unfold stagedFlagAt
              rw [hget]
            rcases hinv with ⟨hf, -⟩ | ⟨hf, -⟩ <;> rw [hnone] at hf <;> exact absurd hf (by simp)
      | Association => exact absurd hsig (by simp [hw, Edge.isSignal])
      | Connection name => exact absurd hsig (by simp [hw, Edge.isSignal])
    · simp only [stageSignalEdges] at h
      split at h
      · split at h
        · rename_i ct hget
          split at h
          · exact ih _ _ _ he' h hinv
          · rename_i hstag
            have hflagtgt : stagedFlagAt g.nodes e.tgt = some ct.flags.staged := by
              unfold stagedFlagAt
              rw [hget]
            by_cases htc2 : e.tgt = c
            · subst htc2
              refine ih _ _ _ he' h ?_
              rcases hinv with ⟨hf, hcnt⟩ | ⟨hf, -⟩
              · right
                constructor
                · have h1 : (g.nodes.set e.tgt (Node.Cell { ct with flags := { ct.flags with staged := true } })).get? e.tgt
                      = some (Node.Cell { ct with flags := { ct.flags with staged := true } }) := by
                    rw [List.get?_set_eq, hget]
                    rfl
                  unfold stagedFlagAt
                  rw [h1]
                · rw [count_append_self, hcnt]
              · rw [hflagtgt] at hf
                simp only [Option.some.injEq] at hf
                exact absurd hf hstag
            · refine ih _ _ _ he' h ?_
              have hstf := stagedFlagAt_set_ne g.nodes e.tgt
                (Node.Cell { ct with flags := { ct.flags with staged := true } }) c htc2
              have hcnteq := count_append_ne staged e.tgt c htc2
              unfold StagedInv at hinv ⊢
              rw [hstf, hcnteq]
              exact hinv
        · exact ih _ _ _ he' h hinv
        · exact absurd h (by simp)
      · exact ih _ _ _ he' h hinv

/-- If fired node `f` has a `Signal` edge to cell `c` and the staging invariant
holds, then after processing `f` in the staging phase `c` is staged exactly
once. -/
theorem stageNode_reach (g : ComponentGraph) (staged em : List Nat) (f : Nat)
    (g' : ComponentGraph) (staged' em' : List Nat) (c : Nat) (e0 : BEdge)
    (he : e0 ∈ g.outgoing f) (hsig : e0.weight.isSignal = true) (htc : e0.tgt = c)
    (h : stageNode g staged em f = some (g', staged', em'))
    (hinv : StagedInv c g.nodes staged) :
    StagedOnce c g'.nodes staged' := by
  simp only [stageNode] at h
  split at h
  · exact absurd h (by simp)
  · rename_i t2 g1 staged1 em1 hsg
    have honce1 : StagedOnce c g1.nodes staged1 :=
      stageSignalEdges_reach _ _ _ _ _ _ _ c e0 he hsig htc hsg hinv
    cases hgf : g1.nodes.get? f with
    | some n =>
      cases n with
      | Cell cc =>
        rw [hgf] at h
        simp only at h
        have honce2 := (stageAssocEdges_inv (g1.outgoing f) g1 staged1 c).2 honce1
        split at h
        · rename_i c2 hc2
          simp only [Option.some.injEq, Prod.mk.injEq] at h
          obtain ⟨rfl, rfl, -⟩ := h
          have hpres := stagedFlagAt_set_cell
            (stageAssocEdges g1 staged1 (g1.outgoing f)).1.nodes f c2
            { c2 with flags := { c2.flags with fired := false } } hc2 rfl c
          unfold StagedOnce at honce2 ⊢
          rw [hpres]
          exact honce2
        · rename_i name2 cf2 hc2
          simp only [Option.some.injEq, Prod.mk.injEq] at h
          obtain ⟨rfl, rfl, -⟩ := h
          have hpres := stagedFlagAt_set_conn
            (stageAssocEdges g1 staged1 (g1.outgoing f)).1.nodes f name2 cf2
            { cf2 with fired := false } hc2 c
          unfold StagedOnce at honce2 ⊢
          rw [hpres]
          exact honce2
        · exact absurd h (by simp)
      | ConnectorIn name cf =>
        rw [hgf] at h
        simp only at h
        split at h
        · rename_i c2 hc2
          exact absurd (hgf.symm.trans hc2) (by simp)
        · rename_i name2 cf2 hc2
          simp only [Option.some.injEq, Prod.mk.injEq] at h
          obtain ⟨rfl, rfl, -⟩ := h
          have hpres := stagedFlagAt_set_conn g1.nodes f name2 cf2
            { cf2 with fired := false } hc2 c
          unfold StagedOnce at honce1 ⊢
          rw [hpres]
          exact honce1
        · exact absurd h (by simp)
      | ConnectorOut tio =>
        rw [hgf] at h
        simp only at h
        split at h
        · rename_i c2 hc2
          exact absurd (hgf.symm.trans hc2) (by simp)
        · rename_i name2 cf2 hc2
          exact absurd (hgf.symm.trans hc2) (by simp)
        · exact absurd h (by simp)
      | Component =>
        rw [hgf] at h
        simp only at h
        split at h
        · rename_i c2 hc2
          exact absurd (hgf.symm.trans hc2) (by simp)
        · rename_i name2 cf2 hc2
          exact absurd (hgf.symm.trans hc2) (by simp)
        · exact absurd h (by simp)
    | none =>
      rw [hgf] at h
      simp only at h
      split at h
      · rename_i c2 hc2
        exact absurd (hgf.symm.trans hc2) (by simp)
      · rename_i name2 cf2 hc2
        exact absurd (hgf.symm.trans hc2) (by simp)
      · exact absurd h (by simp)

/-- If some fired node has a `Signal` edge to cell `c` and the staging
invariant holds, the whole staging phase leaves `c` staged exactly once. -/
theorem stage_reach (fired : List Nat) (g : ComponentGraph) (staged em : List Nat)
    (g' : ComponentGraph) (staged' em' : List Nat) (c f : Nat) (e0 : BEdge)
    (hf : f ∈ fired) (hsig : e0.weight.isSignal = true) (htc : e0.tgt = c)
    (he : e0 ∈ g.outgoing f)
    (h : stage_signaled_and_associated_nodes g staged em fired = some (g', staged', em'))
    (hinv : StagedInv c g.nodes staged) :
    StagedOnce c g'.nodes staged' := by
  revert he hinv
  induction fired generalizing g staged em with
  | nil => exact absurd hf (List.not_mem_nil _)
  | cons a rest ih =>
    intro he hinv
    simp only [stage_signaled_and_associated_nodes] at h
    split at h
    · rename_i t3 g1 staged1 em1 hsn
      rcases List.mem_cons.mp hf with rfl | hf'
      · have honce1 : StagedOnce c g1.nodes staged1 :=
          stageNode_reach _ _ _ _ _ _ _ c e0 he hsig htc hsn hinv
        exact (stage_inv rest _ _ _ _ _ _ c h).2 honce1
      · have hedges := stageNode_edges _ _ _ _ _ _ _ hsn
        have hout : g1.outgoing f = g.outgoing f := outgoing_eq_of_edges _ _ hedges f
        exact ih g1 staged1 em1 hf' h (by rw [hout]; exact he)
          ((stageNode_inv _ _ _ _ _ _ _ c hsn).1 hinv)
    · exact absurd h (by simp)

/-- C9: staging is idempotent within a cycle.  For a cell `c` that starts the
staging phase unstaged (STAGED flag clear, not on the staged list), the staging
phase pushes `c` onto the staged list at most once, and — when some fired node
has at least one `Signal` edge to `c` (in particular when two or more such
edges from simultaneously fired sources exist) — exactly once: the STAGED flag
set by the first push prevents any duplicate entry. -/
theorem c9_staging_idempotent (g : ComponentGraph) (staged em fired : List Nat)
    (g' : ComponentGraph) (staged' em' : List Nat) (c : Nat) (ccell : Cell)
    (hc : g.nodes.get? c = some (Node.Cell ccell)) (hflag : ccell.flags.staged = false)
    (hcount : staged.count c = 0)
    (h : stage_signaled_and_associated_nodes g staged em fired = some (g', staged', em')) :
    staged'.count c ≤ 1 ∧
    ((∃ f ∈ fired, isSignalTargetOf g f c) → staged'.count c = 1) := by
  have hinv : StagedInv c g.nodes staged := by
    left
    constructor
    · unfold stagedFlagAt
      rw [hc]
      simp [hflag]
    · exact hcount
  constructor
  · have hinv' := (stage_inv fired _ _ _ _ _ _ c h).1 hinv
    rcases hinv' with ⟨-, h0⟩ | ⟨-, h1⟩
    · omega
    · omega
  · rintro ⟨f, hf, e0, he0, htgt, hsgn⟩
    exact (stage_reach fired _ _ _ _ _ _ c f e0 hf hsgn htgt he0 h hinv).2

/-- Witness for `c9_staging_idempotent`: staging the fired batch `[0, 1]` of
`c2Graph` stages cell 3 (the signal target of fired node 1) exactly once. -/
theorem c9_staging_idempotent_witness :
    (([2, 3] : List Nat).count 3 ≤ 1) ∧ (([2, 3] : List Nat).count 3 = 1) := by
  have h := c9_staging_idempotent c2Graph [] [] [0, 1]
    { nodes := [Node.Cell Cell.relay, Node.Cell Cell.relay,
        Node.Cell { Cell.relay with flags := { fired := false, staged := true } },
        Node.Cell { Cell.relay with flags := { fired := false, staged := true } }],
      edges := c2Graph.edges } [2, 3] [] 3 Cell.relay
    (by decide) (by decide) (by decide) (by decide)
  exact ⟨h.1, h.2 ⟨1, by decide, ⟨1, 3, Edge.Signal 0⟩, by decide, by decide, by decide⟩⟩

/-! ## Orchestrator (orchestrator.rs)

The orchestrator source refers to a newer `ComponentInstance` whose
`signal_connector_in` and `step(context)` bodies are not part of the given
sources; those two methods are modelled from the spec (see the doc comments
below).  Lazy instantiation and `Connection`-edge wiring are orthogonal to the
embedded claims: instances are modelled as an already-resolved arena (the
`instance` field of every `InstanceGraphNode` populated, every `ConnectorOut`
carrying its resolved `InstanceConnectorIx`); delivering a signal to a missing
arena index — where the source would lazily create the instance — is a fatal
`none` here, which no embedded theorem exercises. -/

/-- Modelled from the spec: a live `ComponentInstance` as used by the
orchestrator additionally carries the queue of externally injected incoming
connector signals ("`signal_connector_in(connector_index)` appends the index to
an incoming-signal queue"). -/
structure OrchInstance where
  core : ComponentInstance
  incoming : List Nat
deriving DecidableEq, Repr

/-- Modelled from the spec: `ComponentInstance::signal_connector_in` appends
the connector's node index to the incoming-signal queue. -/
def OrchInstance.signal_connector_in (s : OrchInstance) (connector_index : Nat) : OrchInstance :=
  { s with incoming := s.incoming ++ [connector_index] }

/-- Modelled from the spec: at the start of the next `propagate_fired_signals`
phase the incoming signals "are merged into the fired set, so an externally
injected signal is treated exactly like a locally fired node"; the rest of the
step is the source `ComponentInstance::step`. -/
def OrchInstance.step (s : OrchInstance) : Option (OrchInstance × List Nat × Bool) :=
  match ComponentInstance.step { s.core with fired_nodes := s.core.fired_nodes ++ s.incoming } with
  | none => none
  | some (core', em, b) => some ({ core := core', incoming := [] }, em, b)

/-- Modelled from the spec: a `ConnectorOut` event is forwarded to the
orchestrator as "this connector fired" and resolved through the connector's
(already wired) destination `InstanceConnectorIx`. -/
def resolveEmitted (g : ComponentGraph) : List Nat → List InstanceConnectorIx
  | [] => []
  | ix :: rest =>
    match g.nodes.get? ix with
    | some (Node.ConnectorOut (some icx)) => icx :: resolveEmitted g rest
    | _ => resolveEmitted g rest

/-- `ExecutionContext` from orchestrator.rs: the active and queued instance
index lists and the signaled-connector list. -/
structure ExecutionContext where
  active_instance_ixs : List Nat
  queued_instance_ixs : List Nat
  signaled_connector_ixs : List InstanceConnectorIx
deriving DecidableEq, Repr

/-- `ExecutionContext::start_cycle`: when the active list is empty, swap it
with the queued list (`std::mem::swap`). -/
def ExecutionContext.start_cycle (ctx : ExecutionContext) : ExecutionContext :=
  if ctx.active_instance_ixs.length == 0 then
    { ctx with active_instance_ixs := ctx.queued_instance_ixs,
               queued_instance_ixs := ctx.active_instance_ixs }
  else ctx

/-- The orchestrator state: the instance arena (the `instance` fields of the
`InstanceGraph` nodes), the execution context, and the global clock. -/
structure OrchState where
  instances : List OrchInstance
  context : ExecutionContext
  clock_cycle : Nat
deriving DecidableEq, Repr

/-- The stepping loop of `Orchestrator::step`: step every active instance in
order; an instance returning true is pushed onto the queued list, and every
connector event it emitted is resolved and pushed onto the signaled list (the
source pushes them during the step through `context.signal_connector`). -/
def stepInstancesLoop (instances : List OrchInstance) (queued : List Nat)
    (signaled : List InstanceConnectorIx) :
    List Nat → Option (List OrchInstance × List Nat × List InstanceConnectorIx)
  | [] => some (instances, queued, signaled)
  | ix :: rest =>
    match instances.get? ix with
    | none => none
    | some inst =>
      match inst.step with
      | none => none
      | some (inst', em, b) =>
        stepInstancesLoop (instances.set ix inst')
          (if b then queued ++ [ix] else queued)
          (signaled ++ resolveEmitted inst'.core.graph em) rest

/-- The delivery loop of `Orchestrator::step`: for EVERY entry of the signaled
list (the source iterates `signaled_connector_ixs` without draining it), call
`signal_connector_in` on the destination instance and queue that instance for
the next cycle. -/
def deliverSignalsLoop (instances : List OrchInstance) (queued : List Nat) :
    List InstanceConnectorIx → Option (List OrchInstance × List Nat)
  | [] => some (instances, queued)
  | icx :: rest =>
    match instances.get? icx.instance_ix with
    | none => none
    | some inst =>
      deliverSignalsLoop
        (instances.set icx.instance_ix (inst.signal_connector_in icx.connector_ix))
        (queued ++ [icx.instance_ix]) rest

/-- `Orchestrator::step`: advance the clock, run `start_cycle`, step all active
instances, deliver every signaled connector (the signaled list is NOT cleared —
the source never drains `signaled_connector_ixs`), then `end_cycle`: clear the
active list and return `queued_instance_ixs.len() > 0`. -/
def Orchestrator.step (s : OrchState) : Option (OrchState × Bool) :=
  let ctx := s.context.start_cycle
  match stepInstancesLoop s.instances ctx.queued_instance_ixs ctx.signaled_connector_ixs
      ctx.active_instance_ixs with
  | none => none
  | some (insts1, queued1, signaled1) =>
    match deliverSignalsLoop insts1 queued1 signaled1 with
    | none => none
    | some (insts2, queued2) =>
      some ({ instances := insts2,
              context := { active_instance_ixs := [], queued_instance_ixs := queued2,
                           signaled_connector_ixs := signaled1 },
              clock_cycle := s.clock_cycle + 1 },
            decide (0 < queued2.length))

/-- `Orchestrator::run` (`while Self::step(..) {}`) observed through a fuel
bound: whether the run loop returns within `fuel` iterations (a step returning
false ends the run; an aborted step never returns normally). -/
def runTerminatesWithin : Nat → OrchState → Bool
  | 0, _ => false
  | fuel + 1, s =>
    match Orchestrator.step s with
    | none => false
    | some (_, false) => true
    | some (s', true) => runTerminatesWithin fuel s'

/-! ## C1: the global run loop on the `it_works2` configuration

The orchestrator's own `it_works2` test: root component "Component2" =
`ConnectorIn(0) --Signal(0)--> Cell(1) --Signal(0)--> ConnectorOut(2)
--Connection("connector_in")--> ComponentRef(3)`, child component "Component1" =
`ConnectorIn(0) --Signal(0)--> Cell(1)`; the root's ConnectorIn is signaled and
`run()` is called (the test asserts `clock_cycle == 3`). -/

/-- The root ("Component2") graph, parametrised by the relay cell's flags. -/
def iw2Root (f : CellFlags) : ComponentGraph :=
  { nodes := [Node.ConnectorIn "connector_in" CellFlags.empty,
              Node.Cell { cell_type := CellType.Relay, flags := f, signals := 0 },
              Node.ConnectorOut (some ⟨1, 0⟩), Node.Component],
    edges := [⟨0, 1, Edge.Signal 0⟩, ⟨1, 2, Edge.Signal 0⟩,
              ⟨2, 3, Edge.Connection "connector_in"⟩] }

/-- The child ("Component1") graph, parametrised by the relay cell's flags and
signals. -/
def iw2Child (f : CellFlags) (sg : Nat) : ComponentGraph :=
  { nodes := [Node.ConnectorIn "connector_in" CellFlags.empty,
              Node.Cell { cell_type := CellType.Relay, flags := f, signals := sg }],
    edges := [⟨0, 1, Edge.Signal 0⟩] }

/-- The state after `signal_root_instance_connector_in(0)`: the root's incoming
queue holds connector 0 and the root is queued. -/
def iw2Start : OrchState :=
  { instances := [⟨ComponentInstance.new (iw2Root CellFlags.empty) [], [0]⟩,
                  ⟨ComponentInstance.new (iw2Child CellFlags.empty 0) [], []⟩],
    context := { active_instance_ixs := [], queued_instance_ixs := [0],
                 signaled_connector_ixs := [] },
    clock_cycle := 0 }

/-- The state after global cycle 1 (root's ConnectorIn fired, its cell staged
and activated). -/
def iw2State1 : OrchState :=
  { instances := [⟨{ graph := iw2Root { fired := true, staged := true }, fired_nodes := [1],
                     active_nodes := [1], staged_nodes := [], instance_cycle := 1 }, []⟩,
                  ⟨ComponentInstance.new (iw2Child CellFlags.empty 0) [], []⟩],
    context := { active_instance_ixs := [], queued_instance_ixs := [0],
                 signaled_connector_ixs := [] },
    clock_cycle := 1 }

/-- The state after global cycle 2 (the root's cell fired into the
ConnectorOut; the cross-instance signal was delivered to the child's incoming
queue and the child queued for cycle 3). -/
def iw2State2 : OrchState :=
  { instances := [⟨{ graph := iw2Root { fired := false, staged := true }, fired_nodes := [],
                     active_nodes := [1], staged_nodes := [], instance_cycle := 2 }, []⟩,
                  ⟨ComponentInstance.new (iw2Child CellFlags.empty 0) [], [0]⟩],
    context := { active_instance_ixs := [], queued_instance_ixs := [1],
                 signaled_connector_ixs := [⟨1, 0⟩] },
    clock_cycle := 2 }

/-- The state after global cycle 3 (the child's ConnectorIn fired and its cell
activated; the stale connector signal was re-delivered, queueing the child
twice). -/
def iw2State3 : OrchState :=
  { instances := [⟨{ graph := iw2Root { fired := false, staged := true }, fired_nodes := [],
                     active_nodes := [1], staged_nodes := [], instance_cycle := 2 }, []⟩,
                  ⟨{ graph := iw2Child { fired := true, staged := true } 0, fired_nodes := [1],
                     active_nodes := [1], staged_nodes := [], instance_cycle := 1 }, [0]⟩],
    context := { active_instance_ixs := [], queued_instance_ixs := [1, 1],
                 signaled_connector_ixs := [⟨1, 0⟩] },
    clock_cycle := 3 }

/-- The periodic family of states from global cycle 4 on: the stale connector
signal is re-delivered every cycle, the child stays queued forever, and only
the global clock `c` and the child's instance cycle counter `m` advance. -/
def iw2Loop (c m : Nat) : OrchState :=
  { instances := [⟨{ graph := iw2Root { fired := false, staged := true }, fired_nodes := [],
                     active_nodes := [1], staged_nodes := [], instance_cycle := 2 }, []⟩,
                  ⟨{ graph := iw2Child { fired := false, staged := true } 1, fired_nodes := [],
                     active_nodes := [1], staged_nodes := [], instance_cycle := m }, [0]⟩],
    context := { active_instance_ixs := [], queued_instance_ixs := [1],
                 signaled_connector_ixs := [⟨1, 0⟩] },
    clock_cycle := c }

/-- Global cycle 1 of the `it_works2` run. -/
theorem iw2_step1 : Orchestrator.step iw2Start = some (iw2State1, true) := by decide

/-- Global cycle 2 of the `it_works2` run. -/
theorem iw2_step2 : Orchestrator.step iw2State1 = some (iw2State2, true) := by decide

/-- Global cycle 3 of the `it_works2` run (where the source test expects
`run()` to have returned with `clock_cycle == 3`; the model instead reports
more queued work). -/
theorem iw2_step3 : Orchestrator.step iw2State2 = some (iw2State3, true) := by decide

/-- Global cycle 4 reaches the periodic family. -/
theorem iw2_step4 : Orchestrator.step iw2State3 = some (iw2Loop 4 3, true) := by decide

/-- Every step from the periodic family stays in it (only the clock and the
child's cycle counter advance) and keeps reporting queued work. -/
theorem iw2_loop_step (c m : Nat) :
    Orchestrator.step (iw2Loop c m) = some (iw2Loop (c + 1) (m + 1), true) := rfl

/-- One successful global cycle unfolds the fuelled run-loop observer. -/
theorem runTerminatesWithin_unfold (fuel : Nat) (s s' : OrchState)
    (h : Orchestrator.step s = some (s', true)) :
    runTerminatesWithin (fuel + 1) s = runTerminatesWithin fuel s' := by
  simp only [runTerminatesWithin, h]

/-- The run loop never leaves the periodic family. -/
theorem iw2_loop_never_terminates (fuel : Nat) :
    ∀ c m, runTerminatesWithin fuel (iw2Loop c m) = false := by
  induction fuel with
  | zero => intro c m; rfl
  | succ fuel ih =>
    intro c m
    rw [runTerminatesWithin_unfold fuel _ _ (iw2_loop_step c m)]
    exact ih (c + 1) (m + 1)

/-- C1 (divergence of the code from the claim): on the orchestrator's own
`it_works2` configuration — a finite acyclic signal flow whose test asserts
quiescence with `clock_cycle == 3` — `Orchestrator::run()` never returns:
because `step` iterates `signaled_connector_ixs` without ever clearing it, the
cross-instance signal emitted in global cycle 2 is re-delivered in every later
cycle, the destination instance is re-queued every cycle, `end_cycle` always
sees queued work, and the run loop never observes quiescence, for any amount
of fuel. -/
theorem c1_run_never_returns (fuel : Nat) :
    runTerminatesWithin fuel iw2Start = false := by
  by_cases h4 : fuel < 4
  · interval_cases fuel <;> decide
  · obtain ⟨k, rfl⟩ : ∃ k, fuel = k + 4 := ⟨fuel - 4, by omega⟩
    rw [show k + 4 = (k + 3) + 1 from rfl, runTerminatesWithin_unfold _ _ _ iw2_step1,
        show k + 3 = (k + 2) + 1 from rfl, runTerminatesWithin_unfold _ _ _ iw2_step2,
        show k + 2 = (k + 1) + 1 from rfl, runTerminatesWithin_unfold _ _ _ iw2_step3,
        runTerminatesWithin_unfold _ _ _ iw2_step4]
    exact iw2_loop_never_terminates k 4 3

/-! ## C5: cross-instance signals are delivered after stepping and acted on
in the next global cycle -/

/-- The incoming queue of the instance at arena index `ix`. -/
def incomingAt (instances : List OrchInstance) (ix : Nat) : List Nat :=
  match instances.get? ix with
  | some inst => inst.incoming
  | none => []

/-- Delivery preserves the arena's length. -/
theorem deliverSignalsLoop_length (sigs : List InstanceConnectorIx)
    (instances : List OrchInstance) (queued : List Nat)
    (instances2 : List OrchInstance) (queued2 : List Nat)
    (h : deliverSignalsLoop instances queued sigs = some (instances2, queued2)) :
    instances2.length = instances.length := by
  induction sigs generalizing instances queued with
  | nil =>
    simp only [deliverSignalsLoop, Option.some.injEq, Prod.mk.injEq] at h
    obtain ⟨rfl, -⟩ := h
    rfl
  | cons icx rest ih =>
    simp only [deliverSignalsLoop] at h
    split at h
    · exact absurd h (by simp)
    · have hh := ih _ _ h
      rw [hh, List.length_set]

/-- Delivery only appends to incoming queues: membership is preserved. -/
theorem deliverSignalsLoop_incoming_mono (sigs : List InstanceConnectorIx)
    (instances : List OrchInstance) (queued : List Nat)
    (instances2 : List OrchInstance) (queued2 : List Nat)
    (h : deliverSignalsLoop instances queued sigs = some (instances2, queued2))
    (ix x : Nat) (hx : x ∈ incomingAt instances ix) : x ∈ incomingAt instances2 ix := by
  induction sigs generalizing instances queued with
  | nil =>
    simp only [deliverSignalsLoop, Option.some.injEq, Prod.mk.injEq] at h
    obtain ⟨rfl, -⟩ := h
    exact hx
  | cons icx rest ih =>
    simp only [deliverSignalsLoop] at h
    split at h
    · exact absurd h (by simp)
    · rename_i inst hget
      refine ih _ _ h ?_
      by_cases hix : icx.instance_ix = ix
      · subst hix
        have h1 : ((instances.set icx.instance_ix (inst.signal_connector_in icx.connector_ix)).get? icx.instance_ix)
            = some (inst.signal_connector_in icx.connector_ix) := by
          rw [List.get?_set_eq, hget]
          rfl
        unfold incomingAt at hx ⊢
        rw [h1, hget] at *
        simp only [OrchInstance.signal_connector_in, List.mem_append]
        rw [hget] at hx
        exact Or.inl hx
      · unfold incomingAt at hx ⊢
        rw [List.get?_set_ne _ _ hix]
        exact hx

/-- Delivery only appends to the queued list: membership is preserved. -/
theorem deliverSignalsLoop_queued_mono (sigs : List InstanceConnectorIx)
    (instances : List OrchInstance) (queued : List Nat)
    (instances2 : List OrchInstance) (queued2 : List Nat)
    (h : deliverSignalsLoop instances queued sigs = some (instances2, queued2))
    (y : Nat) (hy : y ∈ queued) : y ∈ queued2 := by
  induction sigs generalizing instances queued with
  | nil =>
    simp only [deliverSignalsLoop, Option.some.injEq, Prod.mk.injEq] at h
    obtain ⟨-, rfl⟩ := h
    exact hy
  | cons icx rest ih =>
    simp only [deliverSignalsLoop] at h
    split at h
    · exact absurd h (by simp)
    · exact ih _ _ h (List.mem_append.mpr (Or.inl hy))

/-- Every signaled connector is delivered: after the delivery loop the
connector index sits in the destination's incoming queue and the destination
is queued. -/
theorem deliverSignalsLoop_delivers (sigs : List InstanceConnectorIx)
    (instances : List OrchInstance) (queued : List Nat)
    (instances2 : List OrchInstance) (queued2 : List Nat)
    (h : deliverSignalsLoop instances queued sigs = some (instances2, queued2))
    (icx : InstanceConnectorIx) (hin : icx ∈ sigs) :
    icx.instance_ix < instances2.length ∧
    icx.connector_ix ∈ incomingAt instances2 icx.instance_ix ∧
    icx.instance_ix ∈ queued2 := by
  induction sigs generalizing instances queued with
  | nil => exact absurd hin (List.not_mem_nil _)
  | cons icx0 rest ih =>
    simp only [deliverSignalsLoop] at h
    split at h
    · exact absurd h (by simp)
    · rename_i inst hget
      rcases List.mem_cons.mp hin with rfl | hin'
      · obtain ⟨hlt, -⟩ := List.get?_eq_some.mp hget
        refine ⟨?_, ?_, ?_⟩
        · rw [deliverSignalsLoop_length _ _ _ _ _ h, List.length_set]
          exact hlt
        · refine deliverSignalsLoop_incoming_mono _ _ _ _ _ h _ _ ?_
          have h1 : ((instances.set icx.instance_ix (inst.signal_connector_in icx.connector_ix)).get? icx.instance_ix)
              = some (inst.signal_connector_in icx.connector_ix) := by
            rw [List.get?_set_eq, hget]
            rfl
          unfold incomingAt
          rw [h1]
          simp [OrchInstance.signal_connector_in]
        · exact deliverSignalsLoop_queued_mono _ _ _ _ _ h _
            (List.mem_append.mpr (Or.inr (List.mem_singleton.mpr rfl)))
      · exact ih _ _ h hin'

/-- C5: within one global cycle all active instances are stepped before any
cross-instance signal is delivered (in `Orchestrator::step` the delivery loop
runs strictly after the stepping loop), and a delivered signal is only acted on
by its destination in the next global cycle: at the end of the cycle every
signaled connector index still sits, unconsumed, in the destination instance's
incoming queue (incoming signals are consumed only by the destination's own
step, which merges them at its next propagate phase), and the destination is on
the queued list that `start_cycle` will swap in at the beginning of the next
cycle. -/
theorem c5_signals_act_next_cycle (s s' : OrchState) (r : Bool)
    (h : Orchestrator.step s = some (s', r)) (icx : InstanceConnectorIx)
    (hin : icx ∈ s'.context.signaled_connector_ixs) :
    icx.instance_ix < s'.instances.length ∧
    icx.connector_ix ∈ incomingAt s'.instances icx.instance_ix ∧
    icx.instance_ix ∈ s'.context.queued_instance_ixs := by
  simp only [Orchestrator.step] at h
  split at h
  · exact absurd h (by simp)
  · rename_i t1 insts1 queued1 signaled1 hstep
    split at h
    · exact absurd h (by simp)
    · rename_i t2 insts2 queued2 hdel
      simp only [Option.some.injEq, Prod.mk.injEq] at h
      obtain ⟨rfl, -⟩ := h
      exact deliverSignalsLoop_delivers _ _ _ _ _ hdel icx hin

/-- Witness for `c5_signals_act_next_cycle`: in global cycle 2 of the
`it_works2` run the root emits the connector signal `⟨1, 0⟩`; at the end of the
cycle it sits in the child's incoming queue and the child is queued for cycle
3. -/
theorem c5_signals_act_next_cycle_witness :
    (1 : Nat) < iw2State2.instances.length ∧
    (0 : Nat) ∈ incomingAt iw2State2.instances 1 ∧
    (1 : Nat) ∈ iw2State2.context.queued_instance_ixs :=
  c5_signals_act_next_cycle iw2State1 iw2State2 true iw2_step2 ⟨1, 0⟩ (by decide)

end Burst
